import Mathlib

/-!
Verification development for the redaction service: a shallow embedding of
the redaction engine (`redact_mcp/redactor.py`), the sliding-window rate
limiter (`redact_mcp/rate_limiter.py`), the in-memory mapping store
(`redact_mcp/storage.py`) and the payload-size middleware stage
(`redact_mcp/middleware.py`), together with theorems about them.

Modelling conventions:
* Text is `List Char`.  Byte strings are `List Nat` (each element a byte).
* Python's `re` patterns are embedded as a small regex AST (`Reg`) with a
  backtracking matcher (`ends`) that enumerates candidate match ends in the
  backtracking priority order of Python's engine (first alternative first,
  greedy quantifiers longest first); the head of the list is the match
  Python returns.  All quantifiers in the source patterns are bounded, so
  they are expanded through `repExact`/`repUpTo`.
* `\w` and `\d` are modelled over their ASCII range; every theorem below
  only ever evaluates these classes on ASCII characters.
* `secrets.randbelow` is modelled by an explicit stream `rand : Nat → Nat`
  carried in the engine state together with a cursor `next`; a draw below
  `n` is `rand next % n`.
* `time.monotonic` readings are rationals supplied explicitly to each call.
-/

/-! ### Character classes used by the compiled patterns -/

def digitC (c : Char) : Bool := decide ('0' ≤ c) && decide (c ≤ '9')

def hexC (c : Char) : Bool :=
  digitC c || (decide ('a' ≤ c) && decide (c ≤ 'f')) || (decide ('A' ≤ c) && decide (c ≤ 'F'))

def wordC (c : Char) : Bool :=
  digitC c || (decide ('a' ≤ c) && decide (c ≤ 'z')) ||
    (decide ('A' ≤ c) && decide (c ≤ 'Z')) || decide (c = '_')

def sepC (c : Char) : Bool := decide (c = ':') || decide (c = '-')

def colonWordC (c : Char) : Bool := decide (c = ':') || wordC c

def d05C (c : Char) : Bool := decide ('0' ≤ c) && decide (c ≤ '5')

def d04C (c : Char) : Bool := decide ('0' ≤ c) && decide (c ≤ '4')

def d19C (c : Char) : Bool := decide ('1' ≤ c) && decide (c ≤ '9')

/-! ### Regex AST and matcher -/

/-- Regex AST: enough for the three compiled patterns of `redactor.py`.
`nlb p` is a negative lookbehind on a one-character class (`(?<!p)`),
`nla p` a negative lookahead (`(?!p)`), `wordB` is `\b`. -/
inductive Reg where
  | cls (p : Char → Bool)
  | eps
  | cat (a b : Reg)
  | alt (a b : Reg)
  | wordB
  | nlb (p : Char → Bool)
  | nla (p : Char → Bool)

/-- Literal character in a pattern. -/
def litR (ch : Char) : Reg := .cls (fun c => decide (c = ch))

/-- `r{n}`: exactly `n` copies. -/
def repExact (a : Reg) : Nat → Reg
  | 0 => .eps
  | n + 1 => .cat a (repExact a n)

/-- `r{0,n}` with greedy preference for more copies. -/
def repUpTo (a : Reg) : Nat → Reg
  | 0 => .eps
  | n + 1 => .alt (.cat a (repUpTo a n)) .eps

/-- `r{m,n}` (`m ≥ 1` in all source patterns), greedy. -/
def repRange (a : Reg) (m n : Nat) : Reg := .cat (repExact a m) (repUpTo a (n - m))

/-- `r?`, greedy. -/
def optR (a : Reg) : Reg := .alt a .eps

/-- Is the character at position `j` (if any) a word character? -/
def wordAt (t : List Char) (j : Nat) : Bool :=
  match t[j]? with
  | some c => wordC c
  | none => false

/-- Python's `\b` at position `i` of `t`. -/
def isWordB (t : List Char) (i : Nat) : Bool :=
  (if i = 0 then false else wordAt t (i - 1)) != wordAt t i

/-- All candidate end positions of a match of `r` starting at position `i`
of `t`, in the priority order of Python's backtracking engine: the head of
the list is the end of the match `re` reports. -/
def ends (t : List Char) : Reg → Nat → List Nat
  | .cls p, i =>
    match t[i]? with
    | some c => if p c then [i + 1] else []
    | none => []
  | .eps, i => [i]
  | .cat a b, i => (ends t a i).flatMap (ends t b)
  | .alt a b, i => ends t a i ++ ends t b i
  | .wordB, i => if isWordB t i then [i] else []
  | .nlb p, i =>
    if i = 0 then [i]
    else
      match t[i - 1]? with
      | some c => if p c then [] else [i]
      | none => [i]
  | .nla p, i =>
    match t[i]? with
    | some c => if p c then [] else [i]
    | none => [i]

/-! ### The three compiled patterns -/

/-- One IPv4 octet: `(?:25[0-5]|2[0-4]\d|1\d\d|[1-9]?\d)`. -/
def octetR : Reg :=
  .alt (.cat (litR '2') (.cat (litR '5') (.cls d05C)))
    (.alt (.cat (litR '2') (.cat (.cls d04C) (.cls digitC)))
      (.alt (.cat (litR '1') (.cat (.cls digitC) (.cls digitC)))
        (.cat (optR (.cls d19C)) (.cls digitC))))

/-- A dotted quad: `(?:octet\.){3}octet`. -/
def quadR : Reg := .cat (repExact (.cat octetR (litR '.')) 3) octetR

/-- `IPV4_RE`: `\b(?:(?:25[0-5]|2[0-4]\d|1\d\d|[1-9]?\d)\.){3}(?:...)\b`. -/
def IPV4_RE : Reg := .cat .wordB (.cat quadR .wordB)

/-- `[0-9a-fA-F]{1,4}` (one IPv6 hex group), greedy. -/
def h14R : Reg := .cat (.cls hexC) (repUpTo (.cls hexC) 3)

/-- `[0-9a-fA-F]{1,4}:`. -/
def h14cR : Reg := .cat h14R (litR ':')

/-- `:[0-9a-fA-F]{1,4}`. -/
def ch14R : Reg := .cat (litR ':') h14R

/-- The alternation inside `IPV6_RE`, in source order. -/
def ipv6AltR : Reg :=
  .alt (.cat (litR ':') (.cat (litR ':') (.cat (litR 'f') (.cat (litR 'f')
    (.cat (litR 'f') (.cat (litR 'f') (.cat (litR ':') quadR)))))))
  (.alt (.cat (repExact h14cR 7) h14R)
  (.alt (.cat (repRange h14cR 1 6) (.cat (litR ':') h14R))
  (.alt (.cat (repRange h14cR 1 5) (repRange ch14R 1 2))
  (.alt (.cat (repRange h14cR 1 4) (repRange ch14R 1 3))
  (.alt (.cat (repRange h14cR 1 3) (repRange ch14R 1 4))
  (.alt (.cat (repRange h14cR 1 2) (repRange ch14R 1 5))
  (.alt (.cat h14cR (repRange ch14R 1 6))
  (.alt (.cat (litR ':') (repRange ch14R 1 7))
  (.alt (.cat (repRange h14cR 1 7) (litR ':'))
  (.cat (litR ':') (litR ':')))))))))))

/-- `IPV6_RE`: `(?<![:\w])(...alternation...)(?![:\w])`. -/
def IPV6_RE : Reg := .cat (.nlb colonWordC) (.cat ipv6AltR (.nla colonWordC))

/-- `[0-9a-fA-F]{2}`. -/
def hexPairR : Reg := repExact (.cls hexC) 2

/-- `MAC_RE`: `\b([0-9a-fA-F]{2}(?:[:\-])){5}[0-9a-fA-F]{2}\b`. -/
def MAC_RE : Reg := .cat .wordB (.cat (.cat (repExact (.cat hexPairR (.cls sepC)) 5) hexPairR) .wordB)

/-! ### Decimal / hexadecimal formatting (Python `str` and `format`) -/

/-- Character for a value in `0..15` (lowercase, as `%x` formats). -/
def hexDigitChar (n : Nat) : Char :=
  if n < 10 then Char.ofNat (48 + n) else Char.ofNat (87 + n)

/-- Fuel-driven digit accumulator for base-`b` formatting; fuel `n + 1`
always suffices for argument `n`. -/
def digitsAux (b : Nat) : Nat → Nat → List Char → List Char
  | 0, _, acc => acc
  | f + 1, n, acc =>
    if n < b then hexDigitChar n :: acc
    else digitsAux b f (n / b) (hexDigitChar (n % b) :: acc)

/-- Decimal representation, as Python's `str` on a nonnegative int. -/
def decRepr (n : Nat) : List Char := digitsAux 10 (n + 1) n []

/-- Hexadecimal representation zero-padded to `w` digits, as `{:0wx}`. -/
def hexPad (w : Nat) (n : Nat) : List Char :=
  let ds := digitsAux 16 (n + 1) n []
  List.replicate (w - ds.length) '0' ++ ds

/-! ### SHA-256 and HMAC-SHA256 (`hashlib.sha256`, `hmac.new`) -/

/-- Truncate to 32 bits. -/
def w32 (n : Nat) : Nat := n % 4294967296

/-- 32-bit right rotation. -/
def rotr32 (x n : Nat) : Nat := w32 ((x >>> n) ||| (x <<< (32 - n)))

/-- SHA-256 round constants (FIPS 180-4, written in decimal). -/
def shaK : List Nat :=
  [1116352408, 1899447441, 3049323471, 3921009573, 961987163, 1508970993,
   2453635748, 2870763221, 3624381080, 310598401, 607225278, 1426881987,
   1925078388, 2162078206, 2614888103, 3248222580, 3835390401, 4022224774,
   264347078, 604807628, 770255983, 1249150122, 1555081692, 1996064986,
   2554220882, 2821834349, 2952996808, 3210313671, 3336571891, 3584528711,
   113926993, 338241895, 666307205, 773529912, 1294757372, 1396182291,
   1695183700, 1986661051, 2177026350, 2456956037, 2730485921, 2820302411,
   3259730800, 3345764771, 3516065817, 3600352804, 4094571909, 275423344,
   430227734, 506948616, 659060556, 883997877, 958139571, 1322822218,
   1537002063, 1747873779, 1955562222, 2024104815, 2227730452, 2361852424,
   2428436474, 2756734187, 3204031479, 3329325298]

/-- SHA-256 initial hash value (in decimal). -/
def shaH0 : List Nat :=
  [1779033703, 3144134277, 1013904242, 2773480762,
   1359893119, 2600822924, 528734635, 1541459225]

/-- Big-endian 8-byte encoding of `n`. -/
def be64 (n : Nat) : List Nat :=
  [(n >>> 56) % 256, (n >>> 48) % 256, (n >>> 40) % 256, (n >>> 32) % 256,
   (n >>> 24) % 256, (n >>> 16) % 256, (n >>> 8) % 256, n % 256]

/-- SHA-256 padding: append `0x80`, zeros to 56 mod 64, then the bit length. -/
def shaPad (msg : List Nat) : List Nat :=
  msg ++ 0x80 :: List.replicate ((120 - (msg.length + 1) % 64) % 64) 0 ++ be64 (8 * msg.length)

/-- Split a byte list into 64-byte chunks (fuel-driven; fuel `l.length + 1`
always suffices since each step drops 64 bytes of a nonempty list). -/
def chunks64Aux : Nat → List Nat → List (List Nat)
  | _, [] => []
  | 0, l => [l]
  | f + 1, l => l.take 64 :: chunks64Aux f (l.drop 64)

def chunks64 (l : List Nat) : List (List Nat) := chunks64Aux l.length l

/-- Pack 4 consecutive bytes (big-endian) into a word, for each of the 16
words of a 64-byte block. -/
def blockWords (block : List Nat) : List Nat :=
  (List.range 16).map fun i =>
    (block.getD (4 * i) 0 <<< 24) ||| (block.getD (4 * i + 1) 0 <<< 16) |||
      (block.getD (4 * i + 2) 0 <<< 8) ||| block.getD (4 * i + 3) 0

/-- Extend the 16 block words to the 64-entry message schedule. -/
def extendW : Nat → List Nat → List Nat
  | 0, ws => ws
  | k + 1, ws =>
    let i := ws.length
    let s0 := (rotr32 (ws.getD (i - 15) 0) 7) ^^^ (rotr32 (ws.getD (i - 15) 0) 18) ^^^ (ws.getD (i - 15) 0 >>> 3)
    let s1 := (rotr32 (ws.getD (i - 2) 0) 17) ^^^ (rotr32 (ws.getD (i - 2) 0) 19) ^^^ (ws.getD (i - 2) 0 >>> 10)
    extendW k (ws ++ [w32 (ws.getD (i - 16) 0 + s0 + ws.getD (i - 7) 0 + s1)])

/-- One SHA-256 compression round. -/
def shaRound (ws : List Nat) (st : List Nat) (i : Nat) : List Nat :=
  let a := st.getD 0 0; let b := st.getD 1 0; let c := st.getD 2 0; let d := st.getD 3 0
  let e := st.getD 4 0; let f := st.getD 5 0; let g := st.getD 6 0; let h := st.getD 7 0
  let s1 := (rotr32 e 6) ^^^ (rotr32 e 11) ^^^ (rotr32 e 25)
  let ch := (e &&& f) ^^^ ((4294967295 - e) &&& g)
  let t1 := w32 (h + s1 + ch + shaK.getD i 0 + ws.getD i 0)
  let s0 := (rotr32 a 2) ^^^ (rotr32 a 13) ^^^ (rotr32 a 22)
  let mj := (a &&& b) ^^^ (a &&& c) ^^^ (b &&& c)
  let t2 := w32 (s0 + mj)
  [w32 (t1 + t2), a, b, c, w32 (d + t1), e, f, g]

/-- Compress one 64-byte block into the running hash `hs`. -/
def shaCompress (hs : List Nat) (block : List Nat) : List Nat :=
  let ws := extendW 48 (blockWords block)
  let st := (List.range 64).foldl (shaRound ws) hs
  (List.range 8).map fun i => w32 (hs.getD i 0 + st.getD i 0)

/-- Serialize a 32-bit word big-endian. -/
def wordBytes (w : Nat) : List Nat :=
  [(w >>> 24) % 256, (w >>> 16) % 256, (w >>> 8) % 256, w % 256]

/-- SHA-256 of a byte string, as a 32-byte string. -/
def sha256 (msg : List Nat) : List Nat :=
  ((chunks64 (shaPad msg)).foldl shaCompress shaH0).flatMap wordBytes

/-- HMAC-SHA256 (`hmac.new(key, msg, sha256).digest()`). -/
def hmacSha256 (key msg : List Nat) : List Nat :=
  let k0 := if 64 < key.length then sha256 key else key
  let kp := k0 ++ List.replicate (64 - k0.length) 0
  sha256 ((kp.map (·  ^^^ 0x5c)) ++ sha256 ((kp.map (· ^^^ 0x36)) ++ msg))

/-- UTF-8 encoding of one character (`str.encode("utf-8")`). -/
def encodeChar (c : Char) : List Nat :=
  let n := c.toNat
  if n < 0x80 then [n]
  else if n < 0x800 then [0xC0 ||| (n >>> 6), 0x80 ||| (n &&& 0x3F)]
  else if n < 0x10000 then
    [0xE0 ||| (n >>> 12), 0x80 ||| ((n >>> 6) &&& 0x3F), 0x80 ||| (n &&& 0x3F)]
  else
    [0xF0 ||| (n >>> 18), 0x80 ||| ((n >>> 12) &&& 0x3F),
     0x80 ||| ((n >>> 6) &&& 0x3F), 0x80 ||| (n &&& 0x3F)]

/-- UTF-8 encoding of a string. -/
def encodeUtf8 (s : List Char) : List Nat := s.flatMap encodeChar

/-! ### The redaction engine (`RedactorEngine`) -/

/-- `RedactMode` from `models.py`. -/
inductive RedactMode where
  | random
  | deterministic
deriving DecidableEq

/-- The three pattern families, in the order of `PATTERNS`. -/
inductive PatternType where
  | ipv6
  | ipv4
  | mac
deriving DecidableEq

/-- Engine state.  `mapping` is the insertion-ordered memo `self._mapping`;
`detKey` is `self._deterministic_key`; `rand`/`next` model the stream of
values drawn from `secrets.randbelow`; `mappingId` models `uuid.uuid4()`. -/
structure Engine where
  mappingId : Nat
  mode : RedactMode
  detKey : Option (List Nat)
  rand : Nat → Nat
  next : Nat
  mapping : List (List Char × List Char)

/-- `RedactorEngine.__init__`: fails when deterministic mode has no secret,
otherwise derives `sha256(secret + context)` as the per-instance key. -/
def RedactorEngine.init (mode : RedactMode) (secret : Option (List Nat))
    (ctx : List Char) (uuid4 : Nat) (rand : Nat → Nat) : Except String Engine :=
  match mode, secret with
  | .deterministic, none => .error "Deterministic mode requires a secret key"
  | .deterministic, some s =>
    .ok ⟨uuid4, .deterministic, some (sha256 (s ++ encodeUtf8 ctx)), rand, 0, []⟩
  | .random, _ => .ok ⟨uuid4, .random, none, rand, 0, []⟩

/-- Insertion-ordered dict lookup (`original in self._mapping`). -/
def lookupM : List (List Char × List Char) → List Char → Option (List Char)
  | [], _ => none
  | (k, v) :: rest, o => if k = o then some v else lookupM rest o

/-- One draw of `secrets.randbelow n` from the modelled stream. -/
def Engine.randbelow (e : Engine) (n : Nat) : Nat × Engine :=
  (e.rand e.next % n, { e with next := e.next + 1 })

/-- `k` consecutive draws below `bound`. -/
def drawList : Engine → Nat → Nat → List Nat × Engine
  | e, _, 0 => ([], e)
  | e, bound, k + 1 =>
    let (x, e1) := e.randbelow bound
    let (xs, e2) := drawList e1 bound k
    (x :: xs, e2)

/-- `RedactorEngine._random_ipv4`. -/
def Engine.randomIPv4 (e : Engine) : List Char × Engine :=
  let (os, e1) := drawList e 256 4
  (List.intercalate ['.'] (os.map decRepr), e1)

/-- `RedactorEngine._random_ipv6`. -/
def Engine.randomIPv6 (e : Engine) : List Char × Engine :=
  let (gs, e1) := drawList e 0x10000 8
  (List.intercalate [':'] (gs.map (hexPad 4)), e1)

/-- `RedactorEngine._random_mac`. -/
def Engine.randomMac (e : Engine) : List Char × Engine :=
  let (os, e1) := drawList e 256 6
  (List.intercalate [':'] (os.map (hexPad 2)), e1)

/-- `RedactorEngine._ipv4_from_bytes`. -/
def ipv4FromBytes (d : List Nat) : List Char :=
  List.intercalate ['.'] ([d.getD 0 0, d.getD 1 0, d.getD 2 0, d.getD 3 0].map decRepr)

/-- `RedactorEngine._ipv6_from_bytes`. -/
def ipv6FromBytes (d : List Nat) : List Char :=
  List.intercalate [':']
    ((List.range 8).map fun i => hexPad 4 ((d.getD (2 * i) 0 <<< 8) ||| d.getD (2 * i + 1) 0))

/-- `RedactorEngine._mac_from_bytes`. -/
def macFromBytes (d : List Nat) : List Char :=
  List.intercalate [':'] ((List.range 6).map fun i => hexPad 2 (d.getD i 0))

/-- `RedactorEngine._deterministic_replacement` (the derived key is always
present in deterministic mode; `getD` stands for the source's assert). -/
def detReplacement (key : List Nat) (original : List Char) : PatternType → List Char
  | .ipv4 => ipv4FromBytes (hmacSha256 key (encodeUtf8 original))
  | .ipv6 => ipv6FromBytes (hmacSha256 key (encodeUtf8 original))
  | .mac => macFromBytes (hmacSha256 key (encodeUtf8 original))

/-- `RedactorEngine._random_replacement`. -/
def Engine.randomReplacement (e : Engine) : PatternType → List Char × Engine
  | .ipv4 => e.randomIPv4
  | .ipv6 => e.randomIPv6
  | .mac => e.randomMac

/-- `RedactorEngine._replace`: memo lookup, else generate and record. -/
def Engine.replaceFn (e : Engine) (original : List Char) (pt : PatternType) :
    List Char × Engine :=
  match lookupM e.mapping original with
  | some r => (r, e)
  | none =>
    match e.mode with
    | .deterministic =>
      let r := detReplacement (e.detKey.getD []) original pt
      (r, { e with mapping := e.mapping ++ [(original, r)] })
    | .random =>
      let (r, e1) := e.randomReplacement pt
      (r, { e1 with mapping := e1.mapping ++ [(original, r)] })

/-- A substitution event: one match of pattern family `pt`, with the matched
text and the replacement used for it. -/
structure Ev where
  pt : PatternType
  orig : List Char
  repl : List Char
deriving DecidableEq

/-- The scan loop of `pattern.sub(f, text)`, replacing each leftmost
non-overlapping match (Python ≥ 3.7 empty-match semantics).  Fuel-driven:
fuel `t.length + 1` suffices because every step advances the position. -/
def subGo (reg : Reg) (pt : PatternType) (t : List Char) :
    Nat → Nat → Engine → List Char × Engine × List Ev
  | 0, _, e => ([], e, [])
  | fuel + 1, i, e =>
    match (ends t reg i).head? with
    | some j =>
      if i < j then
        let orig := (t.drop i).take (j - i)
        let (r, e1) := e.replaceFn orig pt
        let (out, e2, evs) := subGo reg pt t fuel j e1
        (r ++ out, e2, ⟨pt, orig, r⟩ :: evs)
      else
        let (r, e1) := e.replaceFn [] pt
        match t[i]? with
        | some c =>
          let (out, e2, evs) := subGo reg pt t fuel (i + 1) e1
          (r ++ c :: out, e2, ⟨pt, [], r⟩ :: evs)
        | none => (r, e1, [⟨pt, [], r⟩])
    | none =>
      match t[i]? with
      | some c =>
        let (out, e2, evs) := subGo reg pt t fuel (i + 1) e
        (c :: out, e2, evs)
      | none => ([], e, [])

/-- `pattern.sub(lambda m: self._replace(m.group(0), pt), text)`. -/
def subF (reg : Reg) (pt : PatternType) (e : Engine) (t : List Char) :
    List Char × Engine × List Ev :=
  subGo reg pt t (t.length + 1) 0 e

/-- `PATTERNS`: IPv6 first, then IPv4, then MAC. -/
def PATTERNS : List (PatternType × Reg) := [(.ipv6, IPV6_RE), (.ipv4, IPV4_RE), (.mac, MAC_RE)]

/-- `RedactorEngine.redact`, also returning the substitution events. -/
def Engine.redactEv (e : Engine) (text : List Char) :
    List Char × List (List Char × List Char) × List Ev :=
  let step := fun (acc : List Char × Engine × List Ev) (p : PatternType × Reg) =>
    ((subF p.2 p.1 acc.2.1 acc.1).1, (subF p.2 p.1 acc.2.1 acc.1).2.1,
      acc.2.2 ++ (subF p.2 p.1 acc.2.1 acc.1).2.2)
  let r := PATTERNS.foldl step (text, e, [])
  (r.1, r.2.1.mapping, r.2.2)

/-- `RedactorEngine.redact`: returns `(redacted_text, dict(self._mapping))`. -/
def Engine.redact (e : Engine) (text : List Char) :
    List Char × List (List Char × List Char) :=
  ((e.redactEv text).1, (e.redactEv text).2.1)

/-! ### Sliding-window rate limiter (`rate_limiter.py`) -/

/-- Rate limiter state: `_max_requests`, `_window_seconds` and the per-key
timestamp queues `_entries` (monotonic-clock readings as rationals). -/
structure RateLimiter where
  maxRequests : Nat
  windowSeconds : Nat
  entries : List (String × List ℚ)

/-- `SlidingWindowRateLimiter.__init__`: both parameters must be positive. -/
def SlidingWindowRateLimiter.init (maxRequests windowSeconds : Nat) :
    Except String RateLimiter :=
  if maxRequests ≤ 0 then .error "max_requests must be positive"
  else if windowSeconds ≤ 0 then .error "window_seconds must be positive"
  else .ok ⟨maxRequests, windowSeconds, []⟩

/-- First-match association lookup in `_entries`. -/
def lookupQ : List (String × List ℚ) → String → Option (List ℚ)
  | [], _ => none
  | (k, v) :: rest, key => if k = key then some v else lookupQ rest key

/-- Replace the first entry for `key` (or append one), as a dict update. -/
def setQ : List (String × List ℚ) → String → List ℚ → List (String × List ℚ)
  | [], key, q => [(key, q)]
  | (k, v) :: rest, key, q =>
    if k = key then (key, q) :: rest else (k, v) :: setQ rest key q

/-- `SlidingWindowRateLimiter._drain`: pop from the front while the head is
at or before `now - window`. -/
def drain (window : ℚ) (now : ℚ) : List ℚ → List ℚ
  | [] => []
  | ts :: rest => if ts ≤ now - window then drain window now rest else ts :: rest

/-- `SlidingWindowRateLimiter.check` at clock reading `now`:
returns `(allowed, retry_after)` and the updated state. -/
def RateLimiter.check (rl : RateLimiter) (key : String) (now : ℚ) :
    (Bool × Option ℚ) × RateLimiter :=
  let q := (lookupQ rl.entries key).getD []
  let q2 := drain (rl.windowSeconds : ℚ) now q
  if rl.maxRequests ≤ q2.length then
    let retryAfter := (rl.windowSeconds : ℚ) - (now - q2.headD 0)
    ((false, some (max retryAfter 0)), { rl with entries := setQ rl.entries key q2 })
  else
    ((true, none), { rl with entries := setQ rl.entries key (q2 ++ [now]) })

/-- `SlidingWindowRateLimiter.reset`: clear all per-key state. -/
def RateLimiter.reset (rl : RateLimiter) : RateLimiter := { rl with entries := [] }

/-- Modelled from the spec: the `check` procedure exactly as claim C6 words
it — step (1) drops from the front the timestamps *older than*
`now - windowDuration` (strictly older, `ts < now - window`); steps (2) and
(3) as in the code.  Used only to compare the claim against the code. -/
def checkClaimStrict (rl : RateLimiter) (key : String) (now : ℚ) :
    (Bool × Option ℚ) × RateLimiter :=
  let q := (lookupQ rl.entries key).getD []
  let q2 := q.dropWhile (fun ts => decide (ts < now - (rl.windowSeconds : ℚ)))
  if rl.maxRequests ≤ q2.length then
    let retryAfter := (rl.windowSeconds : ℚ) - (now - q2.headD 0)
    ((false, some (max 0 retryAfter)), { rl with entries := setQ rl.entries key q2 })
  else
    ((true, none), { rl with entries := setQ rl.entries key (q2 ++ [now]) })

/-- The amended description of `check`: identical to `checkClaimStrict`
except that the front trim also drops timestamps exactly at the window
boundary (`ts ≤ now - window`), matching `_drain`. -/
def checkAmendedSpec (rl : RateLimiter) (key : String) (now : ℚ) :
    (Bool × Option ℚ) × RateLimiter :=
  let q := (lookupQ rl.entries key).getD []
  let q2 := q.dropWhile (fun ts => decide (ts ≤ now - (rl.windowSeconds : ℚ)))
  if rl.maxRequests ≤ q2.length then
    let retryAfter := (rl.windowSeconds : ℚ) - (now - q2.headD 0)
    ((false, some (max 0 retryAfter)), { rl with entries := setQ rl.entries key q2 })
  else
    ((true, none), { rl with entries := setQ rl.entries key (q2 ++ [now]) })

/-! ### In-memory mapping store (`storage.py`) -/

/-- `InMemoryMappingStore` state: configured TTL and the table mapping
each id to `(mapping, expire_at)`.  Ids model `uuid.UUID` tokens. -/
structure InMemoryStore where
  ttlSeconds : Option Nat
  table : List (Nat × (List (List Char × List Char) × Option ℚ))

/-- Dict assignment `self._store[mapping_id] = (dict(mapping), expire_at)`. -/
def tset : List (Nat × (List (List Char × List Char) × Option ℚ)) → Nat →
    (List (List Char × List Char) × Option ℚ) →
    List (Nat × (List (List Char × List Char) × Option ℚ))
  | [], key, v => [(key, v)]
  | (k, w) :: rest, key, v =>
    if k = key then (key, v) :: rest else (k, w) :: tset rest key v

/-- Dict lookup `self._store.get(mapping_id)`. -/
def tget : List (Nat × (List (List Char × List Char) × Option ℚ)) → Nat →
    Option (List (List Char × List Char) × Option ℚ)
  | [], _ => none
  | (k, w) :: rest, key => if k = key then some w else tget rest key

/-- Dict removal `self._store.pop(mapping_id, None)` (drops the first
matching entry). -/
def tpop : List (Nat × (List (List Char × List Char) × Option ℚ)) → Nat →
    List (Nat × (List (List Char × List Char) × Option ℚ))
  | [], _ => []
  | (k, w) :: rest, key => if k = key then rest else (k, w) :: tpop rest key

/-- `InMemoryMappingStore.save` at clock reading `now`. -/
def InMemoryStore.save (st : InMemoryStore) (mappingId : Nat)
    (mapping : List (List Char × List Char)) (now : ℚ) : InMemoryStore :=
  let expireAt : Option ℚ := st.ttlSeconds.map (fun ttl => now + (ttl : ℚ))
  { st with table := tset st.table mappingId (mapping, expireAt) }

/-- `InMemoryMappingStore.get` at clock reading `now`: expired entries are
treated as absent and evicted as a side effect. -/
def InMemoryStore.get (st : InMemoryStore) (mappingId : Nat) (now : ℚ) :
    Option (List (List Char × List Char)) × InMemoryStore :=
  match tget st.table mappingId with
  | none => (none, st)
  | some (mapping, expireAt) =>
    match expireAt with
    | some ea =>
      if ea < now then (none, { st with table := tpop st.table mappingId })
      else (some mapping, st)
    | none => (some mapping, st)

/-- `InMemoryMappingStore.delete`. -/
def InMemoryStore.delete (st : InMemoryStore) (mappingId : Nat) :
    Bool × InMemoryStore :=
  ((tget st.table mappingId).isSome, { st with table := tpop st.table mappingId })

/-! ### Payload-size middleware stage (`middleware.py`) -/

/-- Outcome of `PayloadSizeMiddleware.dispatch`: either the 413 short
circuit or a pass-through to `call_next` with the body cached on
`request.state`. -/
inductive PayloadOutcome where
  | tooLarge413
  | forwarded (cachedBody : List Nat)
deriving DecidableEq

/-- `PayloadSizeMiddleware.dispatch` with a configured maximum:
reject on a declared content-length above the maximum, else read the body
and reject when its measured length exceeds the maximum, else cache the
body and forward.  The declared header is modelled as `Option Nat`
(`none` covers an absent or empty header, which Python's truthiness test
skips). -/
def PayloadSizeMiddleware.dispatch (maxBytes : Nat) (contentLength : Option Nat)
    (body : List Nat) : PayloadOutcome :=
  match contentLength with
  | some n =>
    if maxBytes < n then .tooLarge413
    else if maxBytes < body.length then .tooLarge413
    else .forwarded body
  | none =>
    if maxBytes < body.length then .tooLarge413
    else .forwarded body

/-! ### Auxiliary definitions used by the theorems -/

/-- The all-zeros stream: models a run in which every `secrets.randbelow`
draw returns 0. -/
def zeroRand : Nat → Nat := fun _ => 0

/-- A `RedactorEngine()` in default (random) mode, with the all-zeros
random stream and mapping id 0. -/
def engineRand0 : Engine := ⟨0, .random, none, zeroRand, 0, []⟩

/-- Do the `ps` classes match the consecutive characters of `t` starting at
position `i`? -/
def matchesAt (t : List Char) : Nat → List (Char → Bool) → Bool
  | _, [] => true
  | i, p :: ps =>
    match t[i]? with
    | some c => p c && matchesAt t (i + 1) ps
    | none => false

/-- A regex is rigid when it is a plain concatenation of one-character
classes; `rigid` returns that class list. -/
def rigid : Reg → Option (List (Char → Bool))
  | .cls p => some [p]
  | .eps => some []
  | .cat a b =>
    match rigid a, rigid b with
    | some pa, some pb => some (pa ++ pb)
    | _, _ => none
  | _ => none

/-- The 17 character classes of the MAC pattern body. -/
def macPs : List (Char → Bool) :=
  [hexC, hexC, sepC, hexC, hexC, sepC, hexC, hexC, sepC,
   hexC, hexC, sepC, hexC, hexC, sepC, hexC, hexC]

/-- Does `MAC_RE` match the whole string (Python `MAC_RE.fullmatch`)? -/
def macFullmatch (s : List Char) : Bool := (ends s MAC_RE 0).contains s.length

/-- Spec-side shape: positions 0-1, 3-4, ..., 15-16 hold the six
two-hex-digit groups. -/
def macGroupsB (s : List Char) : Bool :=
  decide (s.length = 17) &&
    hexC (s.getD 0 ' ') && hexC (s.getD 1 ' ') && hexC (s.getD 3 ' ') && hexC (s.getD 4 ' ') &&
    hexC (s.getD 6 ' ') && hexC (s.getD 7 ' ') && hexC (s.getD 9 ' ') && hexC (s.getD 10 ' ') &&
    hexC (s.getD 12 ' ') && hexC (s.getD 13 ' ') && hexC (s.getD 15 ' ') && hexC (s.getD 16 ' ')

/-- Spec-side shape, amended: the five separators (positions 2, 5, 8, 11,
14) are each `:` or `-`, chosen independently. -/
def macShapeB (s : List Char) : Bool :=
  macGroupsB s && sepC (s.getD 2 ' ') && sepC (s.getD 5 ' ') && sepC (s.getD 8 ' ') &&
    sepC (s.getD 11 ' ') && sepC (s.getD 14 ' ')

/-- Spec-side shape as claim C5 states it: six two-hex-digit groups whose
five separators are uniform — all `:` or all `-`. -/
def macUniformB (s : List Char) : Bool :=
  macGroupsB s &&
    ((decide (s.getD 2 ' ' = ':') && decide (s.getD 5 ' ' = ':') && decide (s.getD 8 ' ' = ':') &&
      decide (s.getD 11 ' ' = ':') && decide (s.getD 14 ' ' = ':')) ||
     (decide (s.getD 2 ' ' = '-') && decide (s.getD 5 ' ' = '-') && decide (s.getD 8 ' ' = '-') &&
      decide (s.getD 11 ' ' = '-') && decide (s.getD 14 ' ' = '-')))

/-- Numeric value of a decimal digit string. -/
def digitsVal (s : List Char) : Nat := s.foldl (fun a c => 10 * a + (c.toNat - 48)) 0

/-- A decimal octet string: nonempty, all digits, value at most 255. -/
def OctetStr (o : List Char) : Prop :=
  o ≠ [] ∧ (∀ c ∈ o, digitC c = true) ∧ digitsVal o ≤ 255

/-- A syntactically valid IPv4 literal: four dot-separated decimal octets
each in 0-255. -/
def IsIPv4Literal (s : List Char) : Prop :=
  ∃ o1 o2 o3 o4 : List Char,
    s = o1 ++ ('.' :: (o2 ++ ('.' :: (o3 ++ ('.' :: o4))))) ∧
      OctetStr o1 ∧ OctetStr o2 ∧ OctetStr o3 ∧ OctetStr o4

/-- Relation between two engines that the deterministic path preserves:
same (deterministic) mode, same derived key, same memo. -/
def DetSim (e1 e2 : Engine) : Prop :=
  e1.mode = .deterministic ∧ e2.mode = .deterministic ∧
    e1.detKey = e2.detKey ∧ e1.mapping = e2.mapping

/-- One operation performed on a rate limiter, with its clock reading. -/
inductive RLOp where
  | check (key : String) (now : ℚ)
  | reset (now : ℚ)

/-- Clock reading at which an operation is observed. -/
def RLOp.time : RLOp → ℚ
  | .check _ t => t
  | .reset t => t

/-- Apply one operation to the limiter state. -/
def runOp (rl : RateLimiter) : RLOp → RateLimiter
  | .check key now => (rl.check key now).2
  | .reset _ => rl.reset

/-- Run a sequence of operations. -/
def runOps : RateLimiter → List RLOp → RateLimiter := List.foldl runOp

/-- The clock readings of the operations are nondecreasing, starting from
`t`. -/
def Chrono : ℚ → List RLOp → Prop
  | _, [] => True
  | t, op :: rest => t ≤ op.time ∧ Chrono op.time rest

/-- Final clock reading after a sequence of operations. -/
def endTime : ℚ → List RLOp → ℚ
  | t, [] => t
  | _, op :: rest => endTime op.time rest

/-- The per-key queue invariant at clock bound `b`: every queue is sorted,
never longer than `maxRequests`, and contains only past readings. -/
def InvB (rl : RateLimiter) (b : ℚ) : Prop :=
  ∀ k q, lookupQ rl.entries k = some q →
    q.Sorted (· ≤ ·) ∧ q.length ≤ rl.maxRequests ∧ ∀ x ∈ q, x ≤ b

/-- Does `pat` occur (as a contiguous substring) anywhere in `t`?  Python's
`pat in t`. -/
def occursIn (pat t : List Char) : Bool :=
  (List.range (t.length + 1)).any fun i => decide ((t.drop i).take pat.length = pat)

/-! ### Theorems -/

/-- Claim C1 (failing-input evaluation).  On the input
`"1.2.3.4 x1.2.3.4"` the engine records `"1.2.3.4"` as an original in the
returned mapping, yet that literal still occurs in the redacted output:
the second occurrence is embedded in the longer word token `x1.2.3.4`, the
`\b` boundary of `IPV4_RE` prevents it from being matched, and it survives
verbatim.  This contradicts the claimed no-leak property (which the
repository's own fuzz test asserts for all inputs). -/
theorem redact_no_leak_failing_input :
    (engineRand0.redact ("1.2.3.4 x1.2.3.4".toList)).2 =
      [("1.2.3.4".toList, "0.0.0.0".toList)] ∧
    occursIn ("1.2.3.4".toList) (engineRand0.redact ("1.2.3.4 x1.2.3.4".toList)).1 = true := by
  decide

/-- Claim C2.  On the input `"::ffff:192.168.1.1"` the engine recognizes
the whole literal as a single IPv6 match: the redacted text is one IPv6
replacement, the mapping holds exactly one entry keyed by the full
literal, and the only substitution event is an IPv6 event (so no separate
IPv4 entry is produced for the embedded dotted quad). -/
theorem redact_ipv6_mapped_single_match :
    engineRand0.redactEv ("::ffff:192.168.1.1".toList) =
      ("0000:0000:0000:0000:0000:0000:0000:0000".toList,
       [("::ffff:192.168.1.1".toList, "0000:0000:0000:0000:0000:0000:0000:0000".toList)],
       [⟨.ipv6, "::ffff:192.168.1.1".toList, "0000:0000:0000:0000:0000:0000:0000:0000".toList⟩]) := by
  decide

/-- Claim C5 (counterexample).  The string `"00:11-22:33:44:55"` mixes the
`:` and `-` separators, so it is not of the uniform-separator shape the
claim describes, yet `MAC_RE` fullmatches it and the engine redacts it as
a MAC address: each of the five separators is chosen independently by the
character class `[:\-]`. -/
theorem mac_mixed_separators_matched :
    macFullmatch ("00:11-22:33:44:55".toList) = true ∧
    macUniformB ("00:11-22:33:44:55".toList) = false ∧
    (engineRand0.redact ("00:11-22:33:44:55".toList)).2 =
      [("00:11-22:33:44:55".toList, "00:00:00:00:00:00".toList)] := by
  decide

/-- Claim C6 (counterexample).  At the exact window boundary the code and
the claimed procedure disagree: with `max_requests = 1`,
`window = 60` and one admission at time 0, a check at time 60 is admitted
by the code (`_drain` drops timestamps `≤ now - window`, so the timestamp
0 is dropped), while the claimed procedure — drop only timestamps
strictly older than `now - window` — keeps the timestamp and denies with
`retryAfter = 0`. -/
theorem check_boundary_timestamp_divergence :
    (RateLimiter.check (RateLimiter.check ⟨1, 60, []⟩ "k" 0).2 "k" 60).1 = (true, none) ∧
    (checkClaimStrict (RateLimiter.check ⟨1, 60, []⟩ "k" 0).2 "k" 60).1 = (false, some 0) := by
  constructor
  · simp [RateLimiter.check, checkClaimStrict, drain, lookupQ, setQ]
  · simp [RateLimiter.check, checkClaimStrict, drain, lookupQ, setQ]

/-- Claim C8.  Whenever the measured byte length of the body exceeds the
configured maximum, the payload-size stage short-circuits with the 413
response — for every declared content-length header (absent, correct,
understated or otherwise wrong). -/
theorem payload_oversize_always_413 (maxBytes : Nat) (contentLength : Option Nat)
    (body : List Nat) (h : maxBytes < body.length) :
    PayloadSizeMiddleware.dispatch maxBytes contentLength body = .tooLarge413 := by
  cases contentLength with
  | none => simp [PayloadSizeMiddleware.dispatch, h]
  | some n =>
    by_cases hn : maxBytes < n <;>
      simp [PayloadSizeMiddleware.dispatch, h, hn]

/-- Witness for `payload_oversize_always_413`: a 3-byte body with an
understated declared length of 1 against a maximum of 2 is rejected. -/
theorem payload_oversize_always_413_witness :
    2 < [7, 7, 7].length ∧
    PayloadSizeMiddleware.dispatch 2 (some 1) [7, 7, 7] = .tooLarge413 :=
  ⟨by decide, payload_oversize_always_413 2 (some 1) [7, 7, 7] (by decide)⟩

/-- Claim C9.  `RedactorEngine` construction succeeds exactly when it is
not the case that deterministic mode is requested without a secret; the
failing case raises the configuration error at construction. -/
theorem engine_init_ok_iff_secret_present (mode : RedactMode)
    (secret : Option (List Nat)) (ctx : List Char) (uuid4 : Nat) (rand : Nat → Nat) :
    (∃ e, RedactorEngine.init mode secret ctx uuid4 rand = .ok e) ↔
      ¬(mode = .deterministic ∧ secret = none) := by
  cases mode <;> cases secret <;> simp [RedactorEngine.init]

/-- Dict update makes the updated key retrievable. -/
theorem tget_tset_self (l : List (Nat × (List (List Char × List Char) × Option ℚ)))
    (k : Nat) (v : List (List Char × List Char) × Option ℚ) :
    tget (tset l k v) k = some v := by
  induction l with
  | nil => simp [tset, tget]
  | cons hd tl ih =>
    by_cases h : hd.1 = k
    · simp [tset, tget, h]
    · simpa [tset, tget, h] using ih

/-- Keys after a dict update: unchanged when the key was present, the key
appended otherwise. -/
theorem keys_tset (l : List (Nat × (List (List Char × List Char) × Option ℚ)))
    (k : Nat) (v : List (List Char × List Char) × Option ℚ) :
    (tset l k v).map Prod.fst =
      if k ∈ l.map Prod.fst then l.map Prod.fst else l.map Prod.fst ++ [k] := by
  induction l with
  | nil => simp [tset]
  | cons hd tl ih =>
    by_cases h : hd.1 = k
    · simp [tset, h]
    · by_cases hm : k ∈ tl.map Prod.fst
      · simp [tset, h, hm, Ne.symm h, ih]
      · simp [tset, h, hm, Ne.symm h, ih]

/-- Dict update preserves key uniqueness. -/
theorem nodup_tset (l : List (Nat × (List (List Char × List Char) × Option ℚ)))
    (k : Nat) (v : List (List Char × List Char) × Option ℚ)
    (h : (l.map Prod.fst).Nodup) : ((tset l k v).map Prod.fst).Nodup := by
  rw [keys_tset]
  by_cases hm : k ∈ l.map Prod.fst
  · simpa [hm] using h
  · simp [hm, List.nodup_append, h]

/-- Lookup of an absent key fails. -/
theorem tget_none_of_not_mem (l : List (Nat × (List (List Char × List Char) × Option ℚ)))
    (k : Nat) (h : k ∉ l.map Prod.fst) : tget l k = none := by
  induction l with
  | nil => simp [tget]
  | cons hd tl ih =>
    simp only [List.map_cons, List.mem_cons, not_or] at h
    have h1 : hd.1 ≠ k := fun e => h.1 e.symm
    simpa [tget, h1] using ih h.2

/-- Popping a key from a duplicate-free dict removes it. -/
theorem tget_tpop_self (l : List (Nat × (List (List Char × List Char) × Option ℚ)))
    (k : Nat) (h : (l.map Prod.fst).Nodup) : tget (tpop l k) k = none := by
  induction l with
  | nil => simp [tpop, tget]
  | cons hd tl ih =>
    simp only [List.map_cons, List.nodup_cons] at h
    by_cases hk : hd.1 = k
    · subst hk
      simpa [tpop] using tget_none_of_not_mem tl hd.1 h.1
    · simpa [tpop, tget, hk] using ih h.2

/-- Claim C7.  A mapping saved under an id with a finite TTL is returned by
`get` at any instant strictly before its expiry instant `now + ttl`
(leaving the store untouched); at any instant past expiry `get` returns
`none` — absent, not an empty mapping — and evicts the entry from the
table as a side effect.  With `ttl = none` the entry is retrievable at
every instant, until an explicit `delete` removes it. -/
theorem storage_ttl_expiry (st : InMemoryStore) (mappingId : Nat)
    (m : List (List Char × List Char)) (now t : ℚ)
    (hnd : (st.table.map Prod.fst).Nodup) :
    (∀ ttl : Nat, st.ttlSeconds = some ttl →
      (t < now + (ttl : ℚ) →
        (st.save mappingId m now).get mappingId t = (some m, st.save mappingId m now)) ∧
      (now + (ttl : ℚ) < t →
        ((st.save mappingId m now).get mappingId t).1 = none ∧
          tget ((st.save mappingId m now).get mappingId t).2.table mappingId = none)) ∧
    (st.ttlSeconds = none →
      (st.save mappingId m now).get mappingId t = (some m, st.save mappingId m now)) ∧
    (((st.save mappingId m now).delete mappingId).2.get mappingId t).1 = none := by
  refine ⟨fun ttl httl => ?_, fun httl => ?_, ?_⟩
  · have hget : tget (st.save mappingId m now).table mappingId = some (m, some (now + (ttl : ℚ))) := by
      simp [InMemoryStore.save, httl, tget_tset_self]
    constructor
    · intro hlt
      have hnexp : ¬ (now + (ttl : ℚ) < t) := by linarith
      simp [InMemoryStore.get, hget, hnexp]
    · intro hexp
      have hnd2 : (((st.save mappingId m now).table).map Prod.fst).Nodup := by
        simpa [InMemoryStore.save] using nodup_tset st.table mappingId _ hnd
      simp [InMemoryStore.get, hget, hexp, tget_tpop_self _ _ hnd2]
  · have hget : tget (st.save mappingId m now).table mappingId = some (m, none) := by
      simp [InMemoryStore.save, httl, tget_tset_self]
    simp [InMemoryStore.get, hget]
  · have hnd2 : (((st.save mappingId m now).table).map Prod.fst).Nodup := by
      simpa [InMemoryStore.save] using nodup_tset st.table mappingId _ hnd
    have hdel : tget ((st.save mappingId m now).delete mappingId).2.table mappingId = none := by
      simpa [InMemoryStore.delete] using tget_tpop_self _ _ hnd2
    simp [InMemoryStore.get, hdel]

/-- Witness for `storage_ttl_expiry`: with TTL 1 second, a mapping saved at
time 0 is retrievable at time 1/2 and absent at time 2. -/
theorem storage_ttl_expiry_witness :
    ((InMemoryStore.save ⟨some 1, []⟩ 0 [] 0).get 0 (1/2)) =
      (some [], InMemoryStore.save ⟨some 1, []⟩ 0 [] 0) ∧
    ((InMemoryStore.save ⟨some 1, []⟩ 0 [] 0).get 0 2).1 = none := by
  have h := storage_ttl_expiry ⟨some 1, []⟩ 0 [] 0 (1/2) (by simp)
  have h2 := storage_ttl_expiry ⟨some 1, []⟩ 0 [] 0 2 (by simp)
  exact ⟨(h.1 1 rfl).1 (by norm_num), ((h2.1 1 rfl).2 (by norm_num)).1⟩

/-- `_drain` is exactly a front trim of the at-or-older timestamps. -/
theorem drain_eq_dropWhile (w now : ℚ) (q : List ℚ) :
    drain w now q = q.dropWhile (fun ts => decide (ts ≤ now - w)) := by
  induction q with
  | nil => simp [drain]
  | cons ts rest ih =>
    by_cases h : ts ≤ now - w <;> simp [drain, List.dropWhile, h, ih]

/-- Claim C6 (amended).  `check` is exactly the claimed procedure once the
front trim is read as dropping the timestamps at-or-older than
`now - windowDuration`; and a limiter for 2 requests per 60-second window
admits the first two checks of a key and denies the third with a positive
retry-after, whenever the three checks fall within one window
(`t1 ≤ t2 ≤ t3 < t1 + 60`). -/
theorem check_amended_characterization (rl : RateLimiter) (key : String)
    (now t1 t2 t3 : ℚ) (h1 : t1 ≤ t2) (h2 : t2 ≤ t3) (h3 : t3 < t1 + 60) :
    RateLimiter.check rl key now = checkAmendedSpec rl key now ∧
    ((RateLimiter.check ⟨2, 60, []⟩ "k" t1).1 = (true, none) ∧
     (RateLimiter.check (RateLimiter.check ⟨2, 60, []⟩ "k" t1).2 "k" t2).1 = (true, none) ∧
     (RateLimiter.check (RateLimiter.check (RateLimiter.check ⟨2, 60, []⟩ "k" t1).2 "k" t2).2 "k" t3).1.1 = false ∧
     ∃ r, (RateLimiter.check (RateLimiter.check (RateLimiter.check ⟨2, 60, []⟩ "k" t1).2 "k" t2).2 "k" t3).1.2 = some r ∧ 0 < r) := by
  constructor
  · simp [RateLimiter.check, checkAmendedSpec, drain_eq_dropWhile, max_comm]
  · have e1 : (RateLimiter.check ⟨2, 60, []⟩ "k" t1) = ((true, none), ⟨2, 60, [("k", [t1])]⟩) := by
      simp [RateLimiter.check, lookupQ, drain, setQ]
    have hd2 : ¬ (t1 ≤ t2 - (60 : ℚ)) := by linarith
    have e2 : (RateLimiter.check (⟨2, 60, [("k", [t1])]⟩ : RateLimiter) "k" t2) =
        ((true, none), ⟨2, 60, [("k", [t1, t2])]⟩) := by
      simp [RateLimiter.check, lookupQ, drain, setQ, hd2]
    have hd3 : ¬ (t1 ≤ t3 - (60 : ℚ)) := by linarith
    have e3 : (RateLimiter.check (⟨2, 60, [("k", [t1, t2])]⟩ : RateLimiter) "k" t3) =
        ((false, some ((60 : ℚ) - (t3 - t1))), ⟨2, 60, [("k", [t1, t2])]⟩) := by
      have hmax : max ((60 : ℚ) - (t3 - t1)) 0 = (60 : ℚ) - (t3 - t1) := by
        apply max_eq_left; linarith
      simp [RateLimiter.check, lookupQ, drain, setQ, hd3, hmax]
    rw [e1]
    rw [show ((true, none), (⟨2, 60, [("k", [t1])]⟩ : RateLimiter)).2 = (⟨2, 60, [("k", [t1])]⟩ : RateLimiter) from rfl, e2]
    rw [show ((true, none), (⟨2, 60, [("k", [t1, t2])]⟩ : RateLimiter)).2 = (⟨2, 60, [("k", [t1, t2])]⟩ : RateLimiter) from rfl, e3]
    exact ⟨rfl, rfl, rfl, ⟨(60 : ℚ) - (t3 - t1), rfl, by linarith⟩⟩

/-- Witness for `check_amended_characterization` at checks 0, 1, 2 on a
fresh 2-per-60 limiter. -/
theorem check_amended_characterization_witness :
    RateLimiter.check ⟨1, 60, []⟩ "x" 5 = checkAmendedSpec ⟨1, 60, []⟩ "x" 5 ∧
    ((RateLimiter.check ⟨2, 60, []⟩ "k" 0).1 = (true, none) ∧
     (RateLimiter.check (RateLimiter.check ⟨2, 60, []⟩ "k" 0).2 "k" 1).1 = (true, none) ∧
     (RateLimiter.check (RateLimiter.check (RateLimiter.check ⟨2, 60, []⟩ "k" 0).2 "k" 1).2 "k" 2).1.1 = false ∧
     ∃ r, (RateLimiter.check (RateLimiter.check (RateLimiter.check ⟨2, 60, []⟩ "k" 0).2 "k" 1).2 "k" 2).1.2 = some r ∧ 0 < r) :=
  check_amended_characterization ⟨1, 60, []⟩ "x" 5 0 1 2 (by norm_num) (by norm_num) (by norm_num)

/-- Matcher equation for concatenation. -/
theorem ends_cat (t : List Char) (a b : Reg) (i : Nat) :
    ends t (.cat a b) i = (ends t a i).flatMap (ends t b) := rfl

/-- Matcher equation for the word boundary. -/
theorem ends_wordB_eq (t : List Char) (i : Nat) :
    ends t .wordB i = if isWordB t i then [i] else [] := rfl

/-- Splitting a class sequence splits the position-wise match. -/
theorem matchesAt_append (t : List Char) (pa pb : List (Char → Bool)) :
    ∀ i, matchesAt t i (pa ++ pb) = (matchesAt t i pa && matchesAt t (i + pa.length) pb) := by
  induction pa with
  | nil => intro i; simp [matchesAt]
  | cons p ps ih =>
    intro i
    simp only [List.cons_append, matchesAt]
    cases h : t[i]? with
    | none => simp
    | some c =>
      have harith : i + 1 + ps.length = i + (ps.length + 1) := by omega
      dsimp only
      rw [List.append_eq, ih (i + 1), ← Bool.and_assoc, List.length_cons, harith]

/-- A rigid regex matches deterministically: its only candidate end is
`i + ps.length`, reached exactly when the classes match position-wise. -/
theorem ends_rigid : ∀ (r : Reg) (ps : List (Char → Bool)), rigid r = some ps →
    ∀ (t : List Char) (i : Nat),
      ends t r i = if matchesAt t i ps then [i + ps.length] else [] := by
  intro r
  induction r with
  | cls p =>
    intro ps hps t i
    simp only [rigid, Option.some.injEq] at hps
    subst hps
    show (match t[i]? with
      | some c => if p c then [i + 1] else []
      | none => []) = _
    cases h : t[i]? with
    | none => simp [matchesAt, h]
    | some c => by_cases hc : p c <;> simp [matchesAt, h, hc]
  | eps =>
    intro ps hps t i
    simp only [rigid, Option.some.injEq] at hps
    subst hps
    simp [ends, matchesAt]
  | cat a b iha ihb =>
    intro ps hps t i
    simp only [rigid] at hps
    cases ha : rigid a with
    | none => rw [ha] at hps; simp at hps
    | some pa =>
      cases hb : rigid b with
      | none => rw [ha, hb] at hps; simp at hps
      | some pb =>
        rw [ha, hb] at hps
        simp only [Option.some.injEq] at hps
        subst hps
        rw [ends_cat, iha pa ha, matchesAt_append]
        by_cases hma : matchesAt t i pa
        · rw [if_pos hma]
          simp only [List.flatMap_cons, List.flatMap_nil, List.append_nil]
          rw [ihb pb hb]
          by_cases hmb : matchesAt t (i + pa.length) pb
          · simp [hma, hmb, List.length_append, Nat.add_assoc]
          · simp [hma, hmb]
        · simp [hma]
  | alt a b iha ihb => intro ps hps; simp [rigid] at hps
  | wordB => intro ps hps; simp [rigid] at hps
  | nlb p => intro ps hps; simp [rigid] at hps
  | nla p => intro ps hps; simp [rigid] at hps

/-- The body of `MAC_RE` is rigid, with classes `macPs`. -/
theorem rigid_mac_body :
    rigid (.cat (repExact (.cat hexPairR (.cls sepC)) 5) hexPairR) = some macPs := rfl

/-- `macPs` has 17 classes. -/
theorem macPs_length : macPs.length = 17 := rfl

/-- Characterization of `MAC_RE` matches: 17 position-wise classes
between two word boundaries. -/
theorem ends_MAC (t : List Char) (i : Nat) :
    ends t MAC_RE i =
      if isWordB t i && matchesAt t i macPs && isWordB t (i + 17) then [i + 17] else [] := by
  have hbody := ends_rigid _ macPs rigid_mac_body t
  show ends t (.cat .wordB (.cat (.cat (repExact (.cat hexPairR (.cls sepC)) 5) hexPairR) .wordB)) i = _
  rw [ends_cat, ends_wordB_eq]
  by_cases h0 : isWordB t i
  · rw [if_pos h0]
    simp only [List.flatMap_cons, List.flatMap_nil, List.append_nil]
    rw [ends_cat, hbody i, macPs_length]
    by_cases hm : matchesAt t i macPs
    · rw [if_pos hm]
      simp only [List.flatMap_cons, List.flatMap_nil, List.append_nil]
      rw [ends_wordB_eq]
      by_cases h17 : isWordB t (i + 17)
      · simp [h0, hm, h17]
      · simp [h0, hm, h17]
    · simp [h0, hm]
  · simp [h0]

/-- Hex digits are word characters. -/
theorem hexC_wordC (c : Char) (h : hexC c = true) : wordC c = true := by
  simp only [hexC, Bool.or_eq_true, Bool.and_eq_true, decide_eq_true_eq] at h
  simp only [wordC, Bool.or_eq_true, Bool.and_eq_true, decide_eq_true_eq]
  rcases h with (h | ⟨h1, h2⟩) | ⟨h1, h2⟩
  · left; left; left; exact h
  · left; left; right; exact ⟨h1, le_trans h2 (by decide)⟩
  · left; right; exact ⟨h1, le_trans h2 (by decide)⟩

/-- Claim C5 (amended).  A string is fullmatched by the engine's MAC
pattern exactly when it consists of six two-hex-digit groups with five
separators each of which is `:` or `-`, chosen independently at each of
the five separator positions. -/
theorem macFullmatch_iff_shape (s : List Char) : macFullmatch s = macShapeB s := by
  by_cases hl : s.length = 17
  · rcases s with _ | ⟨x0, s⟩
    · simp at hl
    rcases s with _ | ⟨x1, s⟩
    · simp at hl
    rcases s with _ | ⟨x2, s⟩
    · simp at hl
    rcases s with _ | ⟨x3, s⟩
    · simp at hl
    rcases s with _ | ⟨x4, s⟩
    · simp at hl
    rcases s with _ | ⟨x5, s⟩
    · simp at hl
    rcases s with _ | ⟨x6, s⟩
    · simp at hl
    rcases s with _ | ⟨x7, s⟩
    · simp at hl
    rcases s with _ | ⟨x8, s⟩
    · simp at hl
    rcases s with _ | ⟨x9, s⟩
    · simp at hl
    rcases s with _ | ⟨x10, s⟩
    · simp at hl
    rcases s with _ | ⟨x11, s⟩
    · simp at hl
    rcases s with _ | ⟨x12, s⟩
    · simp at hl
    rcases s with _ | ⟨x13, s⟩
    · simp at hl
    rcases s with _ | ⟨x14, s⟩
    · simp at hl
    rcases s with _ | ⟨x15, s⟩
    · simp at hl
    rcases s with _ | ⟨x16, s⟩
    · simp at hl
    rcases s with _ | ⟨x17, s⟩
    · simp only [macFullmatch]
      rw [ends_MAC]
      simp only [matchesAt, macPs, isWordB, wordAt, macShapeB, macGroupsB,
        List.getElem?_cons_zero, List.getElem?_cons_succ, List.getElem?_nil,
        List.getD_cons_zero, List.getD_cons_succ, List.length_cons, List.length_nil]
      norm_num
      rw [Bool.eq_iff_iff]
      simp only [Bool.and_eq_true]
      constructor
      · rintro ⟨⟨hw0, h0, h1, hs2, h3, h4, hs5, h6, h7, hs8, h9, h10, hs11, h12, h13, hs14, h15, h16⟩, hw16⟩
        exact ⟨⟨⟨⟨⟨⟨⟨⟨⟨⟨⟨⟨⟨⟨⟨⟨h0, h1⟩, h3⟩, h4⟩, h6⟩, h7⟩, h9⟩, h10⟩, h12⟩, h13⟩, h15⟩, h16⟩, hs2⟩, hs5⟩, hs8⟩, hs11⟩, hs14⟩
      · rintro ⟨⟨⟨⟨⟨⟨⟨⟨⟨⟨⟨⟨⟨⟨⟨⟨h0, h1⟩, h3⟩, h4⟩, h6⟩, h7⟩, h9⟩, h10⟩, h12⟩, h13⟩, h15⟩, h16⟩, hs2⟩, hs5⟩, hs8⟩, hs11⟩, hs14⟩
        exact ⟨⟨hexC_wordC x0 h0, h0, h1, hs2, h3, h4, hs5, h6, h7, hs8, h9, h10, hs11, h12, h13, hs14, h15, h16⟩, hexC_wordC x16 h16⟩
    · simp only [List.length_cons] at hl
      omega
  · simp only [macFullmatch]
    rw [ends_MAC]
    have hshape : macShapeB s = false := by
      simp [macShapeB, macGroupsB, hl]
    rw [hshape]
    split
    · simp [hl]
    · simp

/-- A memo lookup that succeeds still succeeds after the memo grows. -/
theorem lookupM_append_some (m ext : List (List Char × List Char)) (k r : List Char)
    (h : lookupM m k = some r) : lookupM (m ++ ext) k = some r := by
  induction m with
  | nil => simp [lookupM] at h
  | cons hd tl ih =>
    by_cases hk : hd.1 = k
    · simpa [lookupM, hk] using h
    · simp only [lookupM, hk, if_false] at h ⊢
      simpa [lookupM, hk] using ih h

/-- A memo lookup that fails defers to the appended part. -/
theorem lookupM_append_none (m ext : List (List Char × List Char)) (k : List Char)
    (h : lookupM m k = none) : lookupM (m ++ ext) k = lookupM ext k := by
  induction m with
  | nil => simp [lookupM]
  | cons hd tl ih =>
    by_cases hk : hd.1 = k
    · simp [lookupM, hk] at h
    · simp only [lookupM, hk, if_false] at h ⊢
      simpa [lookupM, hk] using ih h

/-- Lookup fails exactly for keys not in the memo. -/
theorem lookupM_none_iff (m : List (List Char × List Char)) (k : List Char) :
    lookupM m k = none ↔ k ∉ m.map Prod.fst := by
  induction m with
  | nil => simp [lookupM]
  | cons hd tl ih =>
    by_cases hk : hd.1 = k <;> simp [lookupM, hk, ih, Ne.symm, eq_comm]

/-- A successful lookup means the key is in the memo. -/
theorem lookupM_some_mem (m : List (List Char × List Char)) (k r : List Char)
    (h : lookupM m k = some r) : k ∈ m.map Prod.fst := by
  by_contra hmem
  rw [← lookupM_none_iff] at hmem
  rw [hmem] at h
  cases h

/-- Drawing from the stream only advances the cursor. -/
theorem drawList_state : ∀ (k : Nat) (e : Engine) (b : Nat),
    (drawList e b k).2 = { e with next := e.next + k } := by
  intro k
  induction k with
  | zero => intro e b; simp [drawList]
  | succ n ih =>
    intro e b
    simp only [drawList, Engine.randbelow, ih]
    congr 1
    omega

/-- Random replacement generation does not touch the memo, the mode or
the derived key. -/
theorem randomReplacement_mapping (e : Engine) (pt : PatternType) :
    (e.randomReplacement pt).2.mapping = e.mapping ∧
    (e.randomReplacement pt).2.mode = e.mode ∧
    (e.randomReplacement pt).2.detKey = e.detKey := by
  cases pt <;>
    simp [Engine.randomReplacement, Engine.randomIPv4, Engine.randomIPv6, Engine.randomMac,
      drawList_state]

/-- `_replace` extends the memo, leaves the looked-up original bound to
the returned replacement, and either leaves the keys unchanged (memo hit)
or appends the one new key (memo miss). -/
theorem replaceFn_spec (e : Engine) (o : List Char) (pt : PatternType) :
    (∃ ext, (e.replaceFn o pt).2.mapping = e.mapping ++ ext) ∧
    lookupM (e.replaceFn o pt).2.mapping o = some (e.replaceFn o pt).1 ∧
    ((e.replaceFn o pt).2.mapping.map Prod.fst = e.mapping.map Prod.fst ∨
      lookupM e.mapping o = none ∧
        (e.replaceFn o pt).2.mapping.map Prod.fst = e.mapping.map Prod.fst ++ [o]) := by
  cases h : lookupM e.mapping o with
  | some r =>
    refine ⟨⟨[], ?_⟩, ?_, Or.inl ?_⟩ <;> simp [Engine.replaceFn, h]
  | none =>
    cases hm : e.mode with
    | deterministic =>
      refine ⟨⟨[(o, detReplacement (e.detKey.getD []) o pt)], ?_⟩, ?_, Or.inr ⟨rfl, ?_⟩⟩
      · simp [Engine.replaceFn, h, hm]
      · simp only [Engine.replaceFn, h, hm]
        rw [lookupM_append_none _ _ _ h]
        simp [lookupM]
      · simp [Engine.replaceFn, h, hm]
    | random =>
      rcases hr : e.randomReplacement pt with ⟨r, e1⟩
      have hmap : e1.mapping = e.mapping := by
        have hmp := (randomReplacement_mapping e pt).1
        rw [hr] at hmp
        exact hmp
      refine ⟨⟨[(o, r)], ?_⟩, ?_, Or.inr ⟨rfl, ?_⟩⟩
      · simp [Engine.replaceFn, h, hm, hr, hmap]
      · simp only [Engine.replaceFn, h, hm, hr, hmap]
        rw [lookupM_append_none _ _ _ h]
        simp [lookupM]
      · simp [Engine.replaceFn, h, hm, hr, hmap]

/-- Gluing step for `subGo_spec`: one replacement (of `orig`, already
performed, taking `e` to `e1` with result `r`) followed by a recursive tail
(taking `e1` to `e2` with events `evs`) satisfies the scan invariants. -/
theorem subGo_glue (e e1 e2 : Engine) (r orig : List Char) (evs : List Ev) (pt : PatternType)
    (hext1 : ∃ ext, e1.mapping = e.mapping ++ ext)
    (hlook1 : lookupM e1.mapping orig = some r)
    (hkeys1 : e1.mapping.map Prod.fst = e.mapping.map Prod.fst ∨
      lookupM e.mapping orig = none ∧
        e1.mapping.map Prod.fst = e.mapping.map Prod.fst ++ [orig])
    (hext2 : ∃ ext, e2.mapping = e1.mapping ++ ext)
    (hlook2 : ∀ ev ∈ evs, lookupM e2.mapping ev.orig = some ev.repl)
    (hnd2 : (e1.mapping.map Prod.fst).Nodup → (e2.mapping.map Prod.fst).Nodup)
    (hkeys2 : ∀ k, k ∈ e2.mapping.map Prod.fst ↔
      k ∈ e1.mapping.map Prod.fst ∨ k ∈ evs.map Ev.orig) :
    (∃ ext, e2.mapping = e.mapping ++ ext) ∧
    (∀ ev ∈ (⟨pt, orig, r⟩ : Ev) :: evs, lookupM e2.mapping ev.orig = some ev.repl) ∧
    ((e.mapping.map Prod.fst).Nodup → (e2.mapping.map Prod.fst).Nodup) ∧
    (∀ k, k ∈ e2.mapping.map Prod.fst ↔
      k ∈ e.mapping.map Prod.fst ∨ k ∈ ((⟨pt, orig, r⟩ : Ev) :: evs).map Ev.orig) := by
  obtain ⟨ext1, hext1⟩ := hext1
  obtain ⟨ext2, hext2⟩ := hext2
  refine ⟨⟨ext1 ++ ext2, by rw [hext2, hext1, List.append_assoc]⟩, ?_, ?_, ?_⟩
  · intro ev hev
    rcases List.mem_cons.mp hev with hev | hev
    · subst hev
      rw [hext2]
      exact lookupM_append_some _ _ _ _ hlook1
    · exact hlook2 ev hev
  · intro hnd
    apply hnd2
    rcases hkeys1 with hsame | ⟨hnone, happ⟩
    · rwa [hsame]
    · rw [happ]
      refine List.Nodup.append hnd (by simp) ?_
      simp only [List.disjoint_singleton]
      rw [← lookupM_none_iff]
      exact hnone
  · intro k
    have h2 := hkeys2 k
    simp only [List.map_cons, List.mem_cons]
    rcases hkeys1 with hsame | ⟨hnone, happ⟩
    · rw [hsame] at h2
      rw [h2]
      constructor
      · tauto
      · rintro (hk | hk | hk)
        · tauto
        · left
          have hor := lookupM_some_mem _ _ _ hlook1
          rw [hsame] at hor
          rw [hk]
          exact hor
        · tauto
    · rw [happ] at h2
      rw [h2]
      simp only [List.mem_append, List.mem_singleton]
      tauto

/-- Scan invariants of the substitution loop: the memo only grows, every
emitted event stays bound in the final memo, key uniqueness is preserved,
and the final keys are the initial keys plus the event originals. -/
theorem subGo_spec (reg : Reg) (pt : PatternType) (t : List Char) :
    ∀ (fuel i : Nat) (e : Engine),
      (∃ ext, (subGo reg pt t fuel i e).2.1.mapping = e.mapping ++ ext) ∧
      (∀ ev ∈ (subGo reg pt t fuel i e).2.2,
        lookupM (subGo reg pt t fuel i e).2.1.mapping ev.orig = some ev.repl) ∧
      ((e.mapping.map Prod.fst).Nodup → ((subGo reg pt t fuel i e).2.1.mapping.map Prod.fst).Nodup) ∧
      (∀ k, k ∈ (subGo reg pt t fuel i e).2.1.mapping.map Prod.fst ↔
        k ∈ e.mapping.map Prod.fst ∨ k ∈ (subGo reg pt t fuel i e).2.2.map Ev.orig) := by
  intro fuel
  induction fuel with
  | zero =>
    intro i e
    refine ⟨⟨[], by simp [subGo]⟩, by simp [subGo], by simp [subGo], fun k => by simp [subGo]⟩
  | succ fuel ih =>
    intro i e
    cases hm : (ends t reg i).head? with
    | none =>
      cases hc : t[i]? with
      | some c =>
        have hrec := ih (i + 1) e
        rcases hs : subGo reg pt t fuel (i + 1) e with ⟨out, e2, evs⟩
        rw [hs] at hrec
        try dsimp only at hrec
        simp only [subGo, hm, hc, hs]
        try dsimp only
        exact hrec
      | none =>
        refine ⟨⟨[], by simp [subGo, hm, hc]⟩, by simp [subGo, hm, hc], by simp [subGo, hm, hc],
          fun k => by simp [subGo, hm, hc]⟩
    | some j =>
      by_cases hij : i < j
      · rcases hre : e.replaceFn ((t.drop i).take (j - i)) pt with ⟨r, e1⟩
        have hspec := replaceFn_spec e ((t.drop i).take (j - i)) pt
        rw [hre] at hspec
        try dsimp only at hspec
        obtain ⟨hext1, hlook1, hkeys1⟩ := hspec
        have hrec := ih j e1
        rcases hs : subGo reg pt t fuel j e1 with ⟨out, e2, evs⟩
        rw [hs] at hrec
        try dsimp only at hrec
        obtain ⟨hext2, hlook2, hnd2, hkeys2⟩ := hrec
        simp only [subGo, hm, hij, if_true, hre, hs]
        try dsimp only
        exact subGo_glue e e1 e2 r _ evs pt hext1 hlook1 hkeys1 hext2 hlook2 hnd2 hkeys2
      · rcases hre : e.replaceFn [] pt with ⟨r, e1⟩
        have hspec := replaceFn_spec e [] pt
        rw [hre] at hspec
        try dsimp only at hspec
        obtain ⟨hext1, hlook1, hkeys1⟩ := hspec
        cases hc : t[i]? with
        | some c =>
          have hrec := ih (i + 1) e1
          rcases hs : subGo reg pt t fuel (i + 1) e1 with ⟨out, e2, evs⟩
          rw [hs] at hrec
          try dsimp only at hrec
          obtain ⟨hext2, hlook2, hnd2, hkeys2⟩ := hrec
          simp only [subGo, hm, hij, if_false, hre, hc, hs]
          try dsimp only
          exact subGo_glue e e1 e2 r _ evs pt hext1 hlook1 hkeys1 hext2 hlook2 hnd2 hkeys2
        | none =>
          simp only [subGo, hm, hij, if_false, hre, hc]
          try dsimp only
          exact subGo_glue e e1 e1 r _ [] pt hext1 hlook1 hkeys1 ⟨[], by simp⟩
            (by intro ev hev; cases hev) (fun h => h) (fun k => by simp)

/-- The scan invariants for one whole `pattern.sub` pass. -/
theorem subF_spec (reg : Reg) (pt : PatternType) (e : Engine) (t : List Char) :
    (∃ ext, (subF reg pt e t).2.1.mapping = e.mapping ++ ext) ∧
    (∀ ev ∈ (subF reg pt e t).2.2,
      lookupM (subF reg pt e t).2.1.mapping ev.orig = some ev.repl) ∧
    ((e.mapping.map Prod.fst).Nodup → ((subF reg pt e t).2.1.mapping.map Prod.fst).Nodup) ∧
    (∀ k, k ∈ (subF reg pt e t).2.1.mapping.map Prod.fst ↔
      k ∈ e.mapping.map Prod.fst ∨ k ∈ (subF reg pt e t).2.2.map Ev.orig) :=
  subGo_spec reg pt t (t.length + 1) 0 e

/-- Transitivity of the scan invariants across two passes. -/
theorem spec_trans (m0 m1 m2 : List (List Char × List Char)) (evs1 evs2 : List Ev)
    (h1ext : ∃ ext, m1 = m0 ++ ext)
    (h1look : ∀ ev ∈ evs1, lookupM m1 ev.orig = some ev.repl)
    (h1nd : (m0.map Prod.fst).Nodup → (m1.map Prod.fst).Nodup)
    (h1keys : ∀ k, k ∈ m1.map Prod.fst ↔ k ∈ m0.map Prod.fst ∨ k ∈ evs1.map Ev.orig)
    (h2ext : ∃ ext, m2 = m1 ++ ext)
    (h2look : ∀ ev ∈ evs2, lookupM m2 ev.orig = some ev.repl)
    (h2nd : (m1.map Prod.fst).Nodup → (m2.map Prod.fst).Nodup)
    (h2keys : ∀ k, k ∈ m2.map Prod.fst ↔ k ∈ m1.map Prod.fst ∨ k ∈ evs2.map Ev.orig) :
    (∃ ext, m2 = m0 ++ ext) ∧
    (∀ ev ∈ evs1 ++ evs2, lookupM m2 ev.orig = some ev.repl) ∧
    ((m0.map Prod.fst).Nodup → (m2.map Prod.fst).Nodup) ∧
    (∀ k, k ∈ m2.map Prod.fst ↔ k ∈ m0.map Prod.fst ∨ k ∈ (evs1 ++ evs2).map Ev.orig) := by
  obtain ⟨ext1, hext1⟩ := h1ext
  obtain ⟨ext2, hext2⟩ := h2ext
  refine ⟨⟨ext1 ++ ext2, by rw [hext2, hext1, List.append_assoc]⟩, ?_, fun h => h2nd (h1nd h), ?_⟩
  · intro ev hev
    rcases List.mem_append.mp hev with hev | hev
    · rw [hext2]
      exact lookupM_append_some _ _ _ _ (h1look ev hev)
    · exact h2look ev hev
  · intro k
    have hk1 := h1keys k
    have hk2 := h2keys k
    simp only [List.map_append, List.mem_append]
    tauto

/-- `redactEv` is the three passes chained in order. -/
theorem redactEv_eq (e : Engine) (text : List Char) :
    e.redactEv text =
      ((subF MAC_RE .mac
          (subF IPV4_RE .ipv4 (subF IPV6_RE .ipv6 e text).2.1 (subF IPV6_RE .ipv6 e text).1).2.1
          (subF IPV4_RE .ipv4 (subF IPV6_RE .ipv6 e text).2.1 (subF IPV6_RE .ipv6 e text).1).1).1,
       (subF MAC_RE .mac
          (subF IPV4_RE .ipv4 (subF IPV6_RE .ipv6 e text).2.1 (subF IPV6_RE .ipv6 e text).1).2.1
          (subF IPV4_RE .ipv4 (subF IPV6_RE .ipv6 e text).2.1 (subF IPV6_RE .ipv6 e text).1).1).2.1.mapping,
       (([] ++ (subF IPV6_RE .ipv6 e text).2.2 ++
          (subF IPV4_RE .ipv4 (subF IPV6_RE .ipv6 e text).2.1 (subF IPV6_RE .ipv6 e text).1).2.2) ++
          (subF MAC_RE .mac
            (subF IPV4_RE .ipv4 (subF IPV6_RE .ipv6 e text).2.1 (subF IPV6_RE .ipv6 e text).1).2.1
            (subF IPV4_RE .ipv4 (subF IPV6_RE .ipv6 e text).2.1 (subF IPV6_RE .ipv6 e text).1).1).2.2)) := by
  simp only [Engine.redactEv, PATTERNS, List.foldl_cons, List.foldl_nil]

/-- The scan invariants composed over the three passes of `redact`. -/
theorem redactEv_spec (e : Engine) (text : List Char) :
    (∃ ext, (e.redactEv text).2.1 = e.mapping ++ ext) ∧
    (∀ ev ∈ (e.redactEv text).2.2, lookupM (e.redactEv text).2.1 ev.orig = some ev.repl) ∧
    ((e.mapping.map Prod.fst).Nodup → ((e.redactEv text).2.1.map Prod.fst).Nodup) ∧
    (∀ k, k ∈ (e.redactEv text).2.1.map Prod.fst ↔
      k ∈ e.mapping.map Prod.fst ∨ k ∈ (e.redactEv text).2.2.map Ev.orig) := by
  rw [redactEv_eq]
  obtain ⟨ha1, ha2, ha3, ha4⟩ := subF_spec IPV6_RE .ipv6 e text
  obtain ⟨hb1, hb2, hb3, hb4⟩ :=
    subF_spec IPV4_RE .ipv4 (subF IPV6_RE .ipv6 e text).2.1 (subF IPV6_RE .ipv6 e text).1
  obtain ⟨hc1, hc2, hc3, hc4⟩ :=
    subF_spec MAC_RE .mac
      (subF IPV4_RE .ipv4 (subF IPV6_RE .ipv6 e text).2.1 (subF IPV6_RE .ipv6 e text).1).2.1
      (subF IPV4_RE .ipv4 (subF IPV6_RE .ipv6 e text).2.1 (subF IPV6_RE .ipv6 e text).1).1
  have hab := spec_trans _ _ _ _ _ ha1 ha2 ha3 ha4 hb1 hb2 hb3 hb4
  obtain ⟨hab1, hab2, hab3, hab4⟩ := hab
  have habc := spec_trans _ _ _ _ _ hab1 hab2 hab3 hab4 hc1 hc2 hc3 hc4
  simpa using habc

/-- Every branch of engine construction starts with an empty memo. -/
theorem init_mapping (mode : RedactMode) (secret : Option (List Nat)) (ctx : List Char)
    (uuid4 : Nat) (rand : Nat → Nat) (e : Engine)
    (h : RedactorEngine.init mode secret ctx uuid4 rand = .ok e) : e.mapping = [] := by
  cases mode <;> cases secret <;> simp [RedactorEngine.init] at h <;> rw [← h]

/-- Claim C3.  For every freshly constructed engine and every input text,
within the single `redact` call all substitution events that share an
original use the identical replacement (the per-call memo is consulted
before generating a new replacement), and the returned mapping has
exactly one entry per distinct matched original: its keys are duplicate
free and are exactly the originals of the substitution events. -/
theorem redact_memoization (mode : RedactMode) (secret : Option (List Nat)) (ctx : List Char)
    (uuid4 : Nat) (rand : Nat → Nat) (e : Engine) (text : List Char)
    (hinit : RedactorEngine.init mode secret ctx uuid4 rand = .ok e) :
    (∀ ev1 ∈ (e.redactEv text).2.2, ∀ ev2 ∈ (e.redactEv text).2.2,
      ev1.orig = ev2.orig → ev1.repl = ev2.repl) ∧
    (((e.redact text).2.map Prod.fst).Nodup) ∧
    (∀ k, k ∈ (e.redact text).2.map Prod.fst ↔ k ∈ (e.redactEv text).2.2.map Ev.orig) := by
  have hmap := init_mapping mode secret ctx uuid4 rand e hinit
  obtain ⟨hext, hlook, hnd, hkeys⟩ := redactEv_spec e text
  have hredact : (e.redact text).2 = (e.redactEv text).2.1 := by
    simp only [Engine.redact]
  refine ⟨?_, ?_, ?_⟩
  · intro ev1 h1 ev2 h2 horig
    have l1 := hlook ev1 h1
    have l2 := hlook ev2 h2
    rw [horig, l2] at l1
    exact (Option.some.injEq _ _ ▸ l1).symm ▸ rfl
  · rw [hredact]
    apply hnd
    rw [hmap]
    simp
  · intro k
    rw [hredact]
    have := hkeys k
    rw [hmap] at this
    simpa using this

/-- Witness for `redact_memoization`: the default random-mode engine on
`"10.0.0.1 then 10.0.0.1 again"`. -/
theorem redact_memoization_witness :
    (∀ ev1 ∈ (engineRand0.redactEv ("10.0.0.1 then 10.0.0.1 again".toList)).2.2,
      ∀ ev2 ∈ (engineRand0.redactEv ("10.0.0.1 then 10.0.0.1 again".toList)).2.2,
        ev1.orig = ev2.orig → ev1.repl = ev2.repl) ∧
    (((engineRand0.redact ("10.0.0.1 then 10.0.0.1 again".toList)).2.map Prod.fst).Nodup) ∧
    (∀ k, k ∈ (engineRand0.redact ("10.0.0.1 then 10.0.0.1 again".toList)).2.map Prod.fst ↔
      k ∈ (engineRand0.redactEv ("10.0.0.1 then 10.0.0.1 again".toList)).2.2.map Ev.orig) :=
  redact_memoization .random none ("default".toList) 0 zeroRand engineRand0
    ("10.0.0.1 then 10.0.0.1 again".toList) rfl

/-- Updating a key makes it retrievable. -/
theorem lookupQ_setQ_self (l : List (String × List ℚ)) (k : String) (q : List ℚ) :
    lookupQ (setQ l k q) k = some q := by
  induction l with
  | nil => simp [setQ, lookupQ]
  | cons hd tl ih =>
    by_cases h : hd.1 = k
    · simp [setQ, lookupQ, h]
    · simpa [setQ, lookupQ, h] using ih

/-- Updating a key leaves other keys untouched. -/
theorem lookupQ_setQ_ne (l : List (String × List ℚ)) (k k2 : String) (q : List ℚ)
    (h : k2 ≠ k) : lookupQ (setQ l k q) k2 = lookupQ l k2 := by
  induction l with
  | nil => simp [setQ, lookupQ, Ne.symm h]
  | cons hd tl ih =>
    by_cases hh : hd.1 = k
    · simp [setQ, lookupQ, hh, Ne.symm h]
    · by_cases hh2 : hd.1 = k2 <;> simp [setQ, lookupQ, h, hh, hh2, ih]

/-- The front trim keeps a sublist of the queue. -/
theorem drain_sublist (w now : ℚ) (q : List ℚ) : List.Sublist (drain w now q) q := by
  rw [drain_eq_dropWhile]
  exact List.dropWhile_sublist _

/-- Appending a late-enough element keeps a queue sorted. -/
theorem sorted_append_singleton (l : List ℚ) (x : ℚ)
    (h : l.Sorted (· ≤ ·)) (hx : ∀ y ∈ l, y ≤ x) : (l ++ [x]).Sorted (· ≤ ·) := by
  rw [List.Sorted, List.pairwise_append]
  exact ⟨h, List.pairwise_singleton _ _, fun a ha b hb => by
    simp only [List.mem_singleton] at hb
    exact hb ▸ hx a ha⟩

/-- `check` and `reset` never change the configured limits. -/
theorem check_fields (rl : RateLimiter) (key : String) (now : ℚ) :
    ((rl.check key now).2.maxRequests = rl.maxRequests ∧
     (rl.check key now).2.windowSeconds = rl.windowSeconds) ∧
    (rl.reset.maxRequests = rl.maxRequests ∧ rl.reset.windowSeconds = rl.windowSeconds) := by
  constructor
  · by_cases hfull : rl.maxRequests ≤
        (drain (rl.windowSeconds : ℚ) now ((lookupQ rl.entries key).getD [])).length <;>
      simp [RateLimiter.check, hfull]
  · simp [RateLimiter.reset]

/-- The queue invariant is monotone in the clock bound. -/
theorem invB_mono (rl : RateLimiter) (b b2 : ℚ) (h : InvB rl b) (hb : b ≤ b2) : InvB rl b2 := by
  intro k q hq
  obtain ⟨h1, h2, h3⟩ := h k q hq
  exact ⟨h1, h2, fun x hx => le_trans (h3 x hx) hb⟩

/-- One `check` at time `now ≥ b` preserves the queue invariant. -/
theorem check_invB (rl : RateLimiter) (key : String) (now b : ℚ)
    (h : InvB rl b) (hb : b ≤ now) : InvB (rl.check key now).2 now := by
  have hq0 : ∀ q, lookupQ rl.entries key = some q →
      q.Sorted (· ≤ ·) ∧ q.length ≤ rl.maxRequests ∧ ∀ x ∈ q, x ≤ b := h key
  set q := (lookupQ rl.entries key).getD [] with hqdef
  have hqprops : q.Sorted (· ≤ ·) ∧ q.length ≤ rl.maxRequests ∧ ∀ x ∈ q, x ≤ b := by
    rw [hqdef]
    cases hl : lookupQ rl.entries key with
    | none => simp [InvB]
    | some q1 => simpa using hq0 q1 hl
  have hsub := drain_sublist (rl.windowSeconds : ℚ) now q
  have hdr_sorted : (drain (rl.windowSeconds : ℚ) now q).Sorted (· ≤ ·) :=
    List.Pairwise.sublist hsub hqprops.1
  have hdr_len : (drain (rl.windowSeconds : ℚ) now q).length ≤ q.length := hsub.length_le
  have hdr_mem : ∀ x ∈ drain (rl.windowSeconds : ℚ) now q, x ≤ b :=
    fun x hx => hqprops.2.2 x (hsub.mem hx)
  unfold RateLimiter.check
  by_cases hfull : rl.maxRequests ≤ (drain (rl.windowSeconds : ℚ) now q).length
  · rw [if_pos hfull]
    intro k2 q2 hl2
    by_cases hk : k2 = key
    · subst hk
      rw [lookupQ_setQ_self] at hl2
      cases hl2
      exact ⟨hdr_sorted, le_trans hdr_len hqprops.2.1,
        fun x hx => le_trans (hdr_mem x hx) hb⟩
    · rw [lookupQ_setQ_ne _ _ _ _ hk] at hl2
      obtain ⟨h1, h2, h3⟩ := h k2 q2 hl2
      exact ⟨h1, h2, fun x hx => le_trans (h3 x hx) hb⟩
  · rw [if_neg hfull]
    intro k2 q2 hl2
    by_cases hk : k2 = key
    · subst hk
      rw [lookupQ_setQ_self] at hl2
      cases hl2
      refine ⟨sorted_append_singleton _ _ hdr_sorted
        (fun y hy => le_trans (hdr_mem y hy) hb), ?_, ?_⟩
      · simp only [List.length_append, List.length_singleton]
        rw [← hqdef]
        omega
      · intro x hx
        rcases List.mem_append.mp hx with hx | hx
        · exact le_trans (hdr_mem x hx) hb
        · simp only [List.mem_singleton] at hx
          exact hx ▸ le_refl now
    · rw [lookupQ_setQ_ne _ _ _ _ hk] at hl2
      obtain ⟨h1, h2, h3⟩ := h k2 q2 hl2
      exact ⟨h1, h2, fun x hx => le_trans (h3 x hx) hb⟩

/-- The queue invariant holds after any chronological operation
sequence, and the configured limits never change. -/
theorem runOps_invB (ops : List RLOp) : ∀ (rl : RateLimiter) (t0 : ℚ),
    InvB rl t0 → Chrono t0 ops →
    InvB (runOps rl ops) (endTime t0 ops) ∧
    (runOps rl ops).maxRequests = rl.maxRequests ∧
    (runOps rl ops).windowSeconds = rl.windowSeconds := by
  induction ops with
  | nil => intro rl t0 h _; exact ⟨h, rfl, rfl⟩
  | cons op rest ih =>
    intro rl t0 h hc
    obtain ⟨hle, hcrest⟩ := hc
    have hrw : runOps rl (op :: rest) = runOps (runOp rl op) rest := rfl
    have hrw2 : endTime t0 (op :: rest) = endTime op.time rest := rfl
    rw [hrw, hrw2]
    cases op with
    | check key now =>
      have hstep : InvB (runOp rl (.check key now)) now :=
        check_invB rl key now t0 h hle
      have hfields := check_fields rl key now
      obtain ⟨hinv, hmax, hw⟩ := ih (runOp rl (.check key now)) now hstep hcrest
      refine ⟨hinv, ?_, ?_⟩
      · rw [hmax]; exact hfields.1.1
      · rw [hw]; exact hfields.1.2
    | reset now =>
      have hstep : InvB (runOp rl (.reset now)) now := by
        intro k q hq
        simp [runOp, RateLimiter.reset, lookupQ] at hq
      obtain ⟨hinv, hmax, hw⟩ := ih (runOp rl (.reset now)) now hstep hcrest
      exact ⟨hinv, hmax, hw⟩

/-- Claim C10.  After any sequence of `check` and `reset` calls observed
at nondecreasing clock readings, every key's timestamp queue is sorted in
nondecreasing order and holds at most `max_requests` timestamps; and on
the next check, a denial leaves the key's queue exactly as it was (the
same queue is still stored), while an admission stores the drained queue
with `now` appended (timestamps are appended only on admission). -/
theorem rate_limiter_invariants (maxR w : Nat) (ops : List RLOp) (t0 : ℚ) (key : String)
    (now : ℚ) (hmax : 1 ≤ maxR) (hc : Chrono t0 ops) (hnow : endTime t0 ops ≤ now) :
    (∀ k q, lookupQ (runOps ⟨maxR, w, []⟩ ops).entries k = some q →
      q.Sorted (· ≤ ·) ∧ q.length ≤ maxR) ∧
    ((((runOps ⟨maxR, w, []⟩ ops).check key now).1.1 = false →
      ∃ q, lookupQ (runOps ⟨maxR, w, []⟩ ops).entries key = some q ∧
        lookupQ ((runOps ⟨maxR, w, []⟩ ops).check key now).2.entries key = some q) ∧
     (((runOps ⟨maxR, w, []⟩ ops).check key now).1.1 = true →
      lookupQ ((runOps ⟨maxR, w, []⟩ ops).check key now).2.entries key =
        some (drain ((runOps ⟨maxR, w, []⟩ ops).windowSeconds : ℚ) now
          ((lookupQ (runOps ⟨maxR, w, []⟩ ops).entries key).getD []) ++ [now]))) := by
  have h0 : InvB ⟨maxR, w, []⟩ t0 := by
    intro k q hq
    simp [lookupQ] at hq
  obtain ⟨hinv, hmaxf, hwf⟩ := runOps_invB ops ⟨maxR, w, []⟩ t0 h0 hc
  refine ⟨?_, ?_, ?_⟩
  · intro k q hq
    obtain ⟨h1, h2, _⟩ := hinv k q hq
    exact ⟨h1, by rwa [hmaxf] at h2⟩
  · unfold RateLimiter.check
    by_cases hfull : (runOps ⟨maxR, w, []⟩ ops).maxRequests ≤
        (drain ((runOps ⟨maxR, w, []⟩ ops).windowSeconds : ℚ) now
          ((lookupQ (runOps ⟨maxR, w, []⟩ ops).entries key).getD [])).length
    · rw [if_pos hfull]
      intro _
      cases hl : lookupQ (runOps ⟨maxR, w, []⟩ ops).entries key with
      | none =>
        exfalso
        rw [hl] at hfull
        simp only [Option.getD_none, drain, List.length_nil, hmaxf] at hfull
        omega
      | some qq =>
        obtain ⟨hs, hlen, _⟩ := hinv key qq hl
        have hsub := drain_sublist ((runOps ⟨maxR, w, []⟩ ops).windowSeconds : ℚ) now qq
        have heq : drain ((runOps ⟨maxR, w, []⟩ ops).windowSeconds : ℚ) now qq = qq := by
          apply hsub.eq_of_length
          have hle := hsub.length_le
          rw [hl] at hfull
          simp only [Option.getD_some] at hfull
          rw [hmaxf] at hfull
          omega
        refine ⟨qq, rfl, ?_⟩
        simp only [Option.getD_some, heq]
        exact lookupQ_setQ_self _ _ _
    · rw [if_neg hfull]
      intro habs
      cases habs
  · unfold RateLimiter.check
    by_cases hfull : (runOps ⟨maxR, w, []⟩ ops).maxRequests ≤
        (drain ((runOps ⟨maxR, w, []⟩ ops).windowSeconds : ℚ) now
          ((lookupQ (runOps ⟨maxR, w, []⟩ ops).entries key).getD [])).length
    · rw [if_pos hfull]
      intro habs
      cases habs
    · rw [if_neg hfull]
      intro _
      exact lookupQ_setQ_self _ _ _

/-- Witness for `rate_limiter_invariants`: two admitted checks at times
0 and 1 on a fresh 2-per-60 limiter, probed with a third check at time 2. -/
theorem rate_limiter_invariants_witness :
    (∀ k q, lookupQ (runOps ⟨2, 60, []⟩ [RLOp.check "k" 0, RLOp.check "k" 1]).entries k = some q →
      q.Sorted (· ≤ ·) ∧ q.length ≤ 2) ∧
    ((((runOps ⟨2, 60, []⟩ [RLOp.check "k" 0, RLOp.check "k" 1]).check "k" 2).1.1 = false →
      ∃ q, lookupQ (runOps ⟨2, 60, []⟩ [RLOp.check "k" 0, RLOp.check "k" 1]).entries "k" = some q ∧
        lookupQ ((runOps ⟨2, 60, []⟩ [RLOp.check "k" 0, RLOp.check "k" 1]).check "k" 2).2.entries "k" = some q) ∧
     (((runOps ⟨2, 60, []⟩ [RLOp.check "k" 0, RLOp.check "k" 1]).check "k" 2).1.1 = true →
      lookupQ ((runOps ⟨2, 60, []⟩ [RLOp.check "k" 0, RLOp.check "k" 1]).check "k" 2).2.entries "k" =
        some (drain (((runOps ⟨2, 60, []⟩ [RLOp.check "k" 0, RLOp.check "k" 1]).windowSeconds : ℚ)) 2
          ((lookupQ (runOps ⟨2, 60, []⟩ [RLOp.check "k" 0, RLOp.check "k" 1]).entries "k").getD []) ++ [2]))) :=
  rate_limiter_invariants 2 60 [RLOp.check "k" 0, RLOp.check "k" 1] 0 "k" 2 (by norm_num)
    (by refine ⟨le_refl 0, ?_, trivial⟩; norm_num [RLOp.time])
    (by norm_num [endTime, RLOp.time])

/-- Digit characters for values below 10. -/
theorem hexDigitChar_digit : ∀ m, m < 10 → digitC (hexDigitChar m) = true := by decide

/-- Numeric value of a digit character. -/
theorem hexDigitChar_val : ∀ m, m < 10 → (hexDigitChar m).toNat - 48 = m := by decide

/-- The accumulator of the digit formatter is a suffix. -/
theorem digitsAux_acc (f : Nat) : ∀ (n : Nat) (acc : List Char),
    digitsAux 10 f n acc = digitsAux 10 f n [] ++ acc := by
  induction f with
  | zero => intro n acc; simp [digitsAux]
  | succ f ih =>
    intro n acc
    by_cases h : n < 10
    · simp [digitsAux, h]
    · simp only [digitsAux, h, if_false]
      rw [ih (n / 10) (hexDigitChar (n % 10) :: acc), ih (n / 10) [hexDigitChar (n % 10)]]
      simp

/-- The digit formatter is fuel-insensitive once the fuel suffices. -/
theorem digitsAux_fuel (f : Nat) : ∀ (f2 n : Nat), n < f → n < f2 →
    digitsAux 10 f n [] = digitsAux 10 f2 n [] := by
  induction f with
  | zero => intro f2 n h; omega
  | succ f ih =>
    intro f2 n h h2
    cases f2 with
    | zero => omega
    | succ f2 =>
      by_cases hn : n < 10
      · simp [digitsAux, hn]
      · simp only [digitsAux, hn, if_false]
        have hdiv : n / 10 < n := Nat.div_lt_self (by omega) (by norm_num)
        rw [digitsAux_acc f, digitsAux_acc f2, ih f2 (n / 10) (by omega) (by omega)]

/-- One division step of decimal formatting. -/
theorem decRepr_step (n : Nat) (h : 10 ≤ n) :
    decRepr n = decRepr (n / 10) ++ [hexDigitChar (n % 10)] := by
  have hnlt : ¬ n < 10 := by omega
  have hdiv : n / 10 < n := Nat.div_lt_self (by omega) (by norm_num)
  show digitsAux 10 (n + 1) n [] = _
  simp only [digitsAux, hnlt, if_false]
  rw [digitsAux_acc n, digitsAux_fuel n (n / 10 + 1) (n / 10) (by omega) (by omega)]
  rfl

/-- Decimal formatting of a single digit. -/
theorem decRepr_lt10 (n : Nat) (h : n < 10) : decRepr n = [hexDigitChar n] := by
  show digitsAux 10 (n + 1) n [] = _
  simp [digitsAux, h]

/-- Decimal representations consist of digit characters. -/
theorem decRepr_digits (n : Nat) : ∀ c ∈ decRepr n, digitC c = true := by
  induction n using Nat.strong_induction_on with
  | _ n ih =>
    by_cases h : n < 10
    · rw [decRepr_lt10 n h]
      intro c hc
      simp only [List.mem_singleton] at hc
      exact hc ▸ hexDigitChar_digit n h
    · rw [decRepr_step n (by omega)]
      intro c hc
      rcases List.mem_append.mp hc with hc | hc
      · exact ih (n / 10) (Nat.div_lt_self (by omega) (by norm_num)) c hc
      · simp only [List.mem_singleton] at hc
        exact hc ▸ hexDigitChar_digit (n % 10) (Nat.mod_lt n (by norm_num))

/-- Decimal representations are nonempty. -/
theorem decRepr_ne_nil (n : Nat) : decRepr n ≠ [] := by
  by_cases h : n < 10
  · rw [decRepr_lt10 n h]; simp
  · rw [decRepr_step n (by omega)]; simp

/-- Appending a last digit multiplies the value by ten. -/
theorem digitsVal_append_last (xs : List Char) (c : Char) :
    digitsVal (xs ++ [c]) = 10 * digitsVal xs + (c.toNat - 48) := by
  simp [digitsVal, List.foldl_append]

/-- Decimal formatting round-trips through `digitsVal`. -/
theorem digitsVal_decRepr (n : Nat) : digitsVal (decRepr n) = n := by
  induction n using Nat.strong_induction_on with
  | _ n ih =>
    by_cases h : n < 10
    · rw [decRepr_lt10 n h]
      simp only [digitsVal, List.foldl_cons, List.foldl_nil]
      rw [Nat.mul_zero, Nat.zero_add]
      exact hexDigitChar_val n h
    · rw [decRepr_step n (by omega), digitsVal_append_last,
        ih (n / 10) (Nat.div_lt_self (by omega) (by norm_num)),
        hexDigitChar_val (n % 10) (Nat.mod_lt n (by norm_num))]
      omega

/-- Serialized words split into bytes. -/
theorem wordBytes_lt (w : Nat) : ∀ x ∈ wordBytes w, x < 256 := by
  simp only [wordBytes, List.mem_cons, List.mem_singleton]
  intro x hx
  rcases hx with h | h | h | h | h <;> first
    | (subst h; exact Nat.mod_lt _ (by norm_num))
    | cases h

/-- SHA-256 output consists of bytes. -/
theorem sha256_bytes_lt (msg : List Nat) : ∀ x ∈ sha256 msg, x < 256 := by
  intro x hx
  simp only [sha256, List.mem_flatMap] at hx
  obtain ⟨w, _, hw⟩ := hx
  exact wordBytes_lt w x hw

/-- HMAC-SHA256 output consists of bytes. -/
theorem hmac_bytes_lt (key msg : List Nat) : ∀ x ∈ hmacSha256 key msg, x < 256 :=
  sha256_bytes_lt _

/-- Defaulted indexing into a byte list yields a byte. -/
theorem getD_lt (l : List Nat) (i : Nat) (h : ∀ x ∈ l, x < 256) : l.getD i 0 < 256 := by
  rw [List.getD]
  cases hi : l.get? i with
  | none => simp
  | some x => simpa using h x (List.get?_mem hi)

/-- Shape of `_ipv4_from_bytes`: four decimal octet strings joined by
dots. -/
theorem ipv4FromBytes_eq (d : List Nat) :
    ipv4FromBytes d = decRepr (d.getD 0 0) ++ ('.' :: (decRepr (d.getD 1 0) ++ ('.' ::
      (decRepr (d.getD 2 0) ++ ('.' :: decRepr (d.getD 3 0)))))) := by
  simp [ipv4FromBytes, List.intercalate]

/-- The decimal representation of a byte is an octet string. -/
theorem octetStr_decRepr (n : Nat) (h : n < 256) : OctetStr (decRepr n) :=
  ⟨decRepr_ne_nil n, decRepr_digits n, by rw [digitsVal_decRepr]; omega⟩

/-- `_ipv4_from_bytes` of a byte list is a syntactically valid IPv4
literal. -/
theorem isIPv4Literal_ipv4FromBytes (d : List Nat) (h : ∀ x ∈ d, x < 256) :
    IsIPv4Literal (ipv4FromBytes d) := by
  refine ⟨decRepr (d.getD 0 0), decRepr (d.getD 1 0), decRepr (d.getD 2 0), decRepr (d.getD 3 0),
    ipv4FromBytes_eq d, ?_, ?_, ?_, ?_⟩ <;> exact octetStr_decRepr _ (getD_lt d _ h)

/-- `_replace` treats deterministically-similar engines identically. -/
theorem detSim_replaceFn (e1 e2 : Engine) (o : List Char) (pt : PatternType)
    (h : DetSim e1 e2) :
    (e1.replaceFn o pt).1 = (e2.replaceFn o pt).1 ∧
    DetSim (e1.replaceFn o pt).2 (e2.replaceFn o pt).2 := by
  obtain ⟨hm1, hm2, hkey, hmap⟩ := h
  cases hl : lookupM e1.mapping o with
  | some r =>
    have hl2 : lookupM e2.mapping o = some r := by rw [← hmap]; exact hl
    have he1 : e1.replaceFn o pt = (r, e1) := by simp [Engine.replaceFn, hl]
    have he2 : e2.replaceFn o pt = (r, e2) := by simp [Engine.replaceFn, hl2]
    rw [he1, he2]
    exact ⟨rfl, hm1, hm2, hkey, hmap⟩
  | none =>
    have hl2 : lookupM e2.mapping o = none := by rw [← hmap]; exact hl
    have he1 : e1.replaceFn o pt = (detReplacement (e1.detKey.getD []) o pt,
        { e1 with mapping := e1.mapping ++ [(o, detReplacement (e1.detKey.getD []) o pt)] }) := by
      simp [Engine.replaceFn, hl, hm1]
    have he2 : e2.replaceFn o pt = (detReplacement (e2.detKey.getD []) o pt,
        { e2 with mapping := e2.mapping ++ [(o, detReplacement (e2.detKey.getD []) o pt)] }) := by
      simp [Engine.replaceFn, hl2, hm2]
    rw [he1, he2]
    refine ⟨by rw [hkey], ?_, ?_, ?_, ?_⟩
    · simpa using hm1
    · simpa using hm2
    · simpa using hkey
    · simp [hmap, hkey]

/-- The scan loop treats deterministically-similar engines identically. -/
theorem detSim_subGo (reg : Reg) (pt : PatternType) (t : List Char) :
    ∀ (fuel i : Nat) (e1 e2 : Engine), DetSim e1 e2 →
      (subGo reg pt t fuel i e1).1 = (subGo reg pt t fuel i e2).1 ∧
      (subGo reg pt t fuel i e1).2.2 = (subGo reg pt t fuel i e2).2.2 ∧
      DetSim (subGo reg pt t fuel i e1).2.1 (subGo reg pt t fuel i e2).2.1 := by
  intro fuel
  induction fuel with
  | zero => intro i e1 e2 h; exact ⟨rfl, rfl, h⟩
  | succ fuel ih =>
    intro i e1 e2 h
    cases hm : (ends t reg i).head? with
    | none =>
      cases hc : t[i]? with
      | some c =>
        obtain ⟨h1, h2, h3⟩ := ih (i + 1) e1 e2 h
        simp only [subGo, hm, hc]
        exact ⟨by rw [h1], by rw [h2], h3⟩
      | none =>
        refine ⟨by simp [subGo, hm, hc], by simp [subGo, hm, hc], ?_⟩
        simp only [subGo, hm, hc]
        exact h
    | some j =>
      by_cases hij : i < j
      · obtain ⟨hr1, hsim1⟩ := detSim_replaceFn e1 e2 ((t.drop i).take (j - i)) pt h
        obtain ⟨h1, h2, h3⟩ := ih j (e1.replaceFn ((t.drop i).take (j - i)) pt).2
          (e2.replaceFn ((t.drop i).take (j - i)) pt).2 hsim1
        simp only [subGo, hm, hij, if_true]
        exact ⟨by rw [hr1, h1], by rw [hr1, h2], h3⟩
      · obtain ⟨hr1, hsim1⟩ := detSim_replaceFn e1 e2 [] pt h
        cases hc : t[i]? with
        | some c =>
          obtain ⟨h1, h2, h3⟩ := ih (i + 1) (e1.replaceFn [] pt).2 (e2.replaceFn [] pt).2 hsim1
          simp only [subGo, hm, hij, if_false, hc]
          exact ⟨by rw [hr1, h1], by rw [hr1, h2], h3⟩
        | none =>
          simp only [subGo, hm, hij, if_false, hc]
          exact ⟨by rw [hr1], by rw [hr1], hsim1⟩

/-- `redact` output is identical on deterministically-similar engines:
in deterministic mode neither the stream, the cursor nor the mapping id
is consulted. -/
theorem detSim_redact (e1 e2 : Engine) (h : DetSim e1 e2) (t : List Char) :
    e1.redact t = e2.redact t := by
  have hpass : ∀ (reg : Reg) (pt : PatternType) (f1 f2 : Engine), DetSim f1 f2 →
      ∀ (s : List Char),
      (subF reg pt f1 s).1 = (subF reg pt f2 s).1 ∧
      (subF reg pt f1 s).2.2 = (subF reg pt f2 s).2.2 ∧
      DetSim (subF reg pt f1 s).2.1 (subF reg pt f2 s).2.1 :=
    fun reg pt f1 f2 hf s => detSim_subGo reg pt s (s.length + 1) 0 f1 f2 hf
  obtain ⟨ha1, ha2, ha3⟩ := hpass IPV6_RE .ipv6 e1 e2 h t
  obtain ⟨hb1, hb2, hb3⟩ := hpass IPV4_RE .ipv4 (subF IPV6_RE .ipv6 e1 t).2.1
    (subF IPV6_RE .ipv6 e2 t).2.1 ha3 (subF IPV6_RE .ipv6 e1 t).1
  have hbt : subF IPV4_RE .ipv4 (subF IPV6_RE .ipv6 e2 t).2.1 (subF IPV6_RE .ipv6 e1 t).1 =
      subF IPV4_RE .ipv4 (subF IPV6_RE .ipv6 e2 t).2.1 (subF IPV6_RE .ipv6 e2 t).1 := by
    rw [ha1]
  rw [hbt] at hb1 hb2 hb3
  obtain ⟨hc1, hc2, hc3⟩ := hpass MAC_RE .mac
    (subF IPV4_RE .ipv4 (subF IPV6_RE .ipv6 e1 t).2.1 (subF IPV6_RE .ipv6 e1 t).1).2.1
    (subF IPV4_RE .ipv4 (subF IPV6_RE .ipv6 e2 t).2.1 (subF IPV6_RE .ipv6 e2 t).1).2.1 hb3
    (subF IPV4_RE .ipv4 (subF IPV6_RE .ipv6 e1 t).2.1 (subF IPV6_RE .ipv6 e1 t).1).1
  have hct : subF MAC_RE .mac
      (subF IPV4_RE .ipv4 (subF IPV6_RE .ipv6 e2 t).2.1 (subF IPV6_RE .ipv6 e2 t).1).2.1
      (subF IPV4_RE .ipv4 (subF IPV6_RE .ipv6 e1 t).2.1 (subF IPV6_RE .ipv6 e1 t).1).1 =
    subF MAC_RE .mac
      (subF IPV4_RE .ipv4 (subF IPV6_RE .ipv6 e2 t).2.1 (subF IPV6_RE .ipv6 e2 t).1).2.1
      (subF IPV4_RE .ipv4 (subF IPV6_RE .ipv6 e2 t).2.1 (subF IPV6_RE .ipv6 e2 t).1).1 := by
    rw [hb1]
  rw [hct] at hc1 hc2 hc3
  have hshow : ∀ (e : Engine) (s : List Char),
      e.redact s = ((e.redactEv s).1, (e.redactEv s).2.1) := fun e s => by
    simp only [Engine.redact]
  rw [hshow e1 t, hshow e2 t, redactEv_eq e1 t, redactEv_eq e2 t]
  dsimp only
  rw [Prod.mk.injEq]
  exact ⟨hc1, hc3.2.2.2⟩

/-- A scan with no match anywhere copies the text and leaves the engine
untouched. -/
theorem subGo_nomatch (reg : Reg) (pt : PatternType) (t : List Char)
    (h : ∀ i, i ≤ t.length → ends t reg i = []) :
    ∀ (fuel i : Nat) (e : Engine), fuel + i = t.length + 1 →
      subGo reg pt t fuel i e = (t.drop i, e, []) := by
  intro fuel
  induction fuel with
  | zero =>
    intro i e hf
    have : i = t.length + 1 := by omega
    rw [this, subGo]
    rw [List.drop_eq_nil_of_le (by omega)]
  | succ fuel ih =>
    intro i e hf
    have hile : i ≤ t.length := by omega
    have hends := h i hile
    have hhead : (ends t reg i).head? = none := by rw [hends]; rfl
    cases hc : t[i]? with
    | some c =>
      have hlt : i < t.length := List.getElem?_eq_some_iff.mp hc |>.1
      have hrec := ih (i + 1) e (by omega)
      simp only [subGo, hhead, hc, hrec]
      have hdrop : t.drop i = c :: t.drop (i + 1) := by
        rw [List.drop_eq_getElem_cons hlt]
        have := List.getElem?_eq_some_iff.mp hc |>.2
        rw [this]
      rw [hdrop]
    | none =>
      have hge : t.length ≤ i := by
        by_contra hcon
        push_neg at hcon
        rw [List.getElem?_eq_getElem hcon] at hc
        cases hc
      have : i = t.length := by omega
      simp only [subGo, hhead, hc]
      rw [this, List.drop_length]

/-- A pass with no match anywhere is the identity. -/
theorem subF_nomatch (reg : Reg) (pt : PatternType) (t : List Char) (e : Engine)
    (h : ∀ i, i ≤ t.length → ends t reg i = []) :
    subF reg pt e t = (t, e, []) := by
  have := subGo_nomatch reg pt t h (t.length + 1) 0 e (by omega)
  simpa [subF] using this

/-- A pass whose first match covers the whole (nonempty) text performs
exactly one replacement. -/
theorem subF_single (reg : Reg) (pt : PatternType) (t : List Char) (m : Nat)
    (hlen : t.length = m + 1)
    (h0 : (ends t reg 0).head? = some t.length)
    (hend : (ends t reg t.length).head? = none) (e : Engine) :
    subF reg pt e t =
      ((e.replaceFn t pt).1, (e.replaceFn t pt).2, [⟨pt, t, (e.replaceFn t pt).1⟩]) := by
  have hf : t.length + 1 = (m + 1) + 1 := by omega
  rw [subF, hf]
  rw [hlen] at h0
  have hpos : 0 < m + 1 := by omega
  simp only [subGo, h0, hpos, if_true, List.drop_zero, Nat.sub_zero]
  have htake : t.take (m + 1) = t := by
    rw [← hlen]
    exact List.take_length t
  rw [htake]
  have hnone : t[m + 1]? = none := by
    rw [List.getElem?_eq_none]
    omega
  have hend2 : (ends t reg (m + 1)).head? = none := by rw [← hlen]; exact hend
  simp only [subGo, hend2, hnone]
  simp

/-- A position-wise match certifies each class at its offset. -/
theorem matchesAt_class (t : List Char) : ∀ (ps : List (Char → Bool)) (i : Nat),
    matchesAt t i ps = true → ∀ j, j < ps.length →
      ∃ c, t[i + j]? = some c ∧ (ps.getD j (fun _ => false)) c = true := by
  intro ps
  induction ps with
  | nil => intro i h j hj; simp at hj
  | cons p rest ih =>
    intro i h j hj
    rw [matchesAt] at h
    cases hc : t[i]? with
    | none => rw [hc] at h; cases h
    | some c =>
      rw [hc] at h
      obtain ⟨hp, hrest⟩ := Bool.and_eq_true_iff.mp h
      cases j with
      | zero => exact ⟨c, by simpa using hc, by simpa using hp⟩
      | succ j =>
        obtain ⟨c2, hc2, hp2⟩ := ih (i + 1) hrest j (by simpa using hj)
        refine ⟨c2, ?_, by simpa using hp2⟩
        rw [← hc2]
        congr 1
        omega

/-- `MAC_RE` cannot match inside text that has no `:` or `-`. -/
theorem no_sep_no_mac (t : List Char) (h : ∀ c ∈ t, sepC c = false) (i : Nat) :
    ends t MAC_RE i = [] := by
  rw [ends_MAC]
  by_cases hm : matchesAt t i macPs
  · exfalso
    obtain ⟨c, hc, hp⟩ := matchesAt_class t macPs i hm 2 (by rw [macPs_length]; omega)
    have hcm : c ∈ t := by
      have hsome := List.getElem?_eq_some_iff.mp hc
      obtain ⟨hlt, heq⟩ := hsome
      exact heq ▸ List.getElem_mem hlt
    have : sepC c = true := by simpa [macPs] using hp
    rw [h c hcm] at this
    cases this
  · simp [hm]

/-- Digit characters are not MAC separators. -/
theorem digit_not_sep (c : Char) (h : digitC c = true) : sepC c = false := by
  by_cases h1 : c = ':'
  · subst h1; cases h
  · by_cases h2 : c = '-'
    · subst h2; cases h
    · simp [sepC, h1, h2]

/-- `_ipv4_from_bytes` output contains no MAC separator characters. -/
theorem ipv4FromBytes_no_sep (d : List Nat) : ∀ c ∈ ipv4FromBytes d, sepC c = false := by
  rw [ipv4FromBytes_eq]
  intro c hc
  have hdig : ∀ n, c ∈ decRepr n → sepC c = false :=
    fun n hx => digit_not_sep c (decRepr_digits n c hx)
  rcases List.mem_append.mp hc with h | h
  · exact hdig _ h
  rcases List.mem_cons.mp h with h | h
  · exact h ▸ rfl
  rcases List.mem_append.mp h with h | h
  · exact hdig _ h
  rcases List.mem_cons.mp h with h | h
  · exact h ▸ rfl
  rcases List.mem_append.mp h with h | h
  · exact hdig _ h
  rcases List.mem_cons.mp h with h | h
  · exact h ▸ rfl
  exact hdig _ h

/-- Claim C4.  Two independently constructed engines in deterministic
mode with the same secret and context label (but arbitrary mapping ids
and random streams) produce identical `redact` results on every text;
and on `"192.168.1.1"` the result maps that literal to a single
replacement which is itself a syntactically valid IPv4 literal (four
dot-separated decimal octets each in 0-255). -/
theorem deterministic_stability (secret : List Nat) (ctx : List Char) (u1 u2 : Nat)
    (r1 r2 : Nat → Nat) (e1 e2 : Engine)
    (h1 : RedactorEngine.init .deterministic (some secret) ctx u1 r1 = .ok e1)
    (h2 : RedactorEngine.init .deterministic (some secret) ctx u2 r2 = .ok e2) :
    (∀ t, e1.redact t = e2.redact t) ∧
    (∃ r, e1.redact ("192.168.1.1".toList) = (r, [("192.168.1.1".toList, r)]) ∧
      IsIPv4Literal r) := by
  simp only [RedactorEngine.init] at h1 h2
  injection h1 with h1e
  injection h2 with h2e
  subst h1e
  subst h2e
  constructor
  · intro t
    apply detSim_redact
    exact ⟨rfl, rfl, rfl, rfl⟩
  · set key := sha256 (secret ++ encodeUtf8 ctx) with hkey
    set ip := ("192.168.1.1".toList) with hip
    set E : Engine := ⟨u1, .deterministic, some key, r1, 0, []⟩ with hE
    set r0 := ipv4FromBytes (hmacSha256 key (encodeUtf8 ip)) with hr0
    have hrep : E.replaceFn ip .ipv4 =
        (r0, { E with mapping := [(ip, r0)] }) := by
      simp [Engine.replaceFn, lookupM, detReplacement, hE]
    have hs1 : subF IPV6_RE .ipv6 E ip = (ip, E, []) := by
      apply subF_nomatch
      rw [hip]
      decide
    have hs2 : subF IPV4_RE .ipv4 E ip =
        ((E.replaceFn ip .ipv4).1, (E.replaceFn ip .ipv4).2,
          [⟨.ipv4, ip, (E.replaceFn ip .ipv4).1⟩]) := by
      apply subF_single IPV4_RE .ipv4 ip 10 (by rw [hip]; rfl) (by rw [hip]; decide)
        (by rw [hip]; decide)
    rw [hrep] at hs2
    have hnosep : ∀ c ∈ r0, sepC c = false := by
      rw [hr0]
      exact ipv4FromBytes_no_sep _
    have hs3 : subF MAC_RE .mac ({ E with mapping := [(ip, r0)] } : Engine) r0 =
        (r0, { E with mapping := [(ip, r0)] }, []) :=
      subF_nomatch _ _ _ _ (fun i _ => no_sep_no_mac r0 hnosep i)
    refine ⟨r0, ?_, ?_⟩
    · have hshow : E.redact ip = ((E.redactEv ip).1, (E.redactEv ip).2.1) := by
        simp only [Engine.redact]
      rw [hshow, redactEv_eq]
      simp only [hs1]
      simp only [hs2]
      simp only [hs3]
    · rw [hr0]
      exact isIPv4Literal_ipv4FromBytes _ (hmac_bytes_lt _ _)

/-- Witness for `deterministic_stability`: secret `[1, 2, 3]`, context
`"default"`, distinct mapping ids. -/
theorem deterministic_stability_witness :
    ∃ e1 e2 : Engine,
      RedactorEngine.init .deterministic (some [1, 2, 3]) ("default".toList) 0 zeroRand = .ok e1 ∧
      RedactorEngine.init .deterministic (some [1, 2, 3]) ("default".toList) 7 zeroRand = .ok e2 ∧
      (∀ t, e1.redact t = e2.redact t) ∧
      (∃ r, e1.redact ("192.168.1.1".toList) = (r, [("192.168.1.1".toList, r)]) ∧
        IsIPv4Literal r) := by
  refine ⟨_, _, rfl, rfl, ?_, ?_⟩
  · exact (deterministic_stability [1, 2, 3] ("default".toList) 0 7 zeroRand zeroRand
      _ _ rfl rfl).1
  · exact (deterministic_stability [1, 2, 3] ("default".toList) 0 7 zeroRand zeroRand
      _ _ rfl rfl).2

/-- Claim C2 (counterexample to the universal part).  The text
`"x::ffff:1.2.3.4"` contains the IPv4-mapped IPv6 literal
`"::ffff:1.2.3.4"` (which, standing alone, the engine does recognize and
replace as a single IPv6 match — third conjunct), yet redacting it
produces no IPv6 entry at all and a separate IPv4 entry for the embedded
dotted quad: the `(?<![:\w])` lookbehind of `IPV6_RE` rejects the
occurrence after the word character `x`, while `\b` lets `IPV4_RE` match
`1.2.3.4` right after the colon. -/
theorem redact_ipv6_mapped_embedded_context :
    (engineRand0.redact ("x::ffff:1.2.3.4".toList)).2 =
      [("1.2.3.4".toList, "0.0.0.0".toList)] ∧
    occursIn ("::ffff:1.2.3.4".toList) ("x::ffff:1.2.3.4".toList) = true ∧
    (engineRand0.redact ("::ffff:1.2.3.4".toList)).2 =
      [("::ffff:1.2.3.4".toList, "0000:0000:0000:0000:0000:0000:0000:0000".toList)] := by
  decide
